import Mathlib

/-!
# Mount-point middleware chain: a shallow embedding

This file embeds the mount-point middleware chain of the repository in
Lean 4 and proves properties of the embedding.

The embedding covers:
* the string / string-map / applied-middleware-stack pattern evaluator
  (`volume/mountpoint/pattern.go`);
* the per-mount applied-middleware stack with clocks
  (`volume.MountPoint`: `EffectiveSource`, `PushMiddleware`,
  `PopMiddleware`, `TopClock`);
* the chain executor (`MountPointChain.AttachMounts`, `DetachMounts`,
  `unwindAttachOnErr`, `unwind`, `stackError`).

Go slices become `List`s, Go `string` becomes `String`, Go maps become
association lists (the map-pattern evaluator is order-independent), Go
`int` becomes `Int`, mutation of the per-mount stacks becomes explicit
state passing, and an RPC to a middleware becomes a pure function from
request to `Except String response` (a transport error is the `.error`
case).  RPC side effects are reified as an event trace returned next to
the new state.
-/

namespace MountPointChain

/-- Wire representation of the changes a middleware made to a mount
(`mountpoint.MountPointAttachment` / `Changes` in the source: an
effective source plus an optional consistency). -/
structure Changes where
  EffectiveSource : String := ""
  Consistency : String := ""
deriving DecidableEq, Repr

/-- `mountpoint.StringPattern`: a conjunctive description of a class of
strings. -/
structure StringPattern where
  Not : Bool := false
  Empty : Bool := false
  Prefix : String := ""
  PathPrefix : String := ""
  Suffix : String := ""
  Exactly : String := ""
  Contains : String := ""
deriving DecidableEq, Repr

/-- `mountpoint.StringMapKeyValuePattern`: a pair of string patterns for
a key and a value of a string map. -/
structure StringMapKeyValuePattern where
  Key : StringPattern := {}
  Value : StringPattern := {}
deriving DecidableEq, Repr

/-- `mountpoint.StringMapPattern`: a description of a class of
string-to-string maps. -/
structure StringMapPattern where
  Not : Bool := false
  Exists : List StringMapKeyValuePattern := []
  All : List StringMapKeyValuePattern := []
deriving DecidableEq, Repr

/-- Substring test on lists of characters: does `sub` occur (contiguously)
inside `s`?  Mirrors Go's `strings.Contains`. -/
def listContainsSub : List Char → List Char → Bool
  | s, sub =>
    if sub.isPrefixOf s then true
    else match s with
      | [] => false
      | _ :: rest => listContainsSub rest sub

/-- Go's `strings.Contains(s, sub)`. -/
def stringsContains (s sub : String) : Bool :=
  listContainsSub s.data sub.data

/-- Go's `strings.HasPrefix(s, prefix)`. -/
def stringsHasPrefix (s pre : String) : Bool :=
  pre.data.isPrefixOf s.data

/-- Go's `strings.HasSuffix(s, suffix)`. -/
def stringsHasSuffix (s suf : String) : Bool :=
  suf.data.isSuffixOf s.data

/-- Split a character list into its `/`-separated segments
(`strings.Split` semantics: n separators yield n+1 segments). -/
def splitSegs : List Char → List Char → List (List Char)
  | [], acc => [acc.reverse]
  | c :: rest, acc =>
    if c = '/' then acc.reverse :: splitSegs rest []
    else splitSegs rest (c :: acc)

/-- Join path segments with `/` separators. -/
def joinSegs : List (List Char) → List Char
  | [] => []
  | [seg] => seg
  | seg :: rest => seg ++ '/' :: joinSegs rest

/-- The segment-stack pass of `filepathClean`: skip empty and `.`
segments, have `..` pop the previous segment (kept literally at the
front of a relative path, dropped at the root of a rooted one). -/
def cleanSegs (rooted : Bool) (segs : List (List Char)) : List (List Char) :=
  (segs.foldl (fun acc seg =>
    if seg = [] || seg = ['.'] then acc
    else if seg = ['.', '.'] then
      match acc with
      | [] => if rooted then [] else [['.', '.']]
      | a :: rest => if a = ['.', '.'] then seg :: a :: rest else rest
    else seg :: acc) []).reverse

/-- Modelled from the spec: Go's `path/filepath.Clean` (POSIX path
cleanup), which lives in the Go standard library and not under `src/`.
Per the spec it collapses `//`, resolves `.` and `..` and strips
trailing `/`; an empty relative result is `.`. -/
def filepathClean (s : String) : String :=
  if s.data = [] then "."
  else
    let rooted := s.data.head? = some '/'
    let out := cleanSegs (decide rooted) (splitSegs s.data [])
    if rooted then ⟨'/' :: joinSegs out⟩
    else if out = [] then "."
    else ⟨joinSegs out⟩

/-- The `matched` boolean computed by the `PathPrefix` block of
`stringPatternMatches` (`pattern.go` lines 362-372): clean both paths,
require a literal prefix match, and when the cleaned pattern does not
end in `/` require the subject to continue with `/` (or end) at the
boundary. -/
def pathPrefixMatched (pathPrefix s : String) : Bool :=
  let cleanPath := (filepathClean s).data
  let cleanPattern := (filepathClean pathPrefix).data
  let patternLen := cleanPattern.length
  let matched := cleanPattern.isPrefixOf cleanPath
  if matched && (cleanPattern.getLast? != some '/') then
    if decide (patternLen < cleanPath.length) && ((cleanPath.drop patternLen).head? != some '/')
    then false else true
  else matched

/-- `stringPatternMatches` (`pattern.go` lines 353-392).  Each populated
sub-field is evaluated and compared against `pattern.Not`; the first
check that comes out equal to `Not` refutes the whole pattern. -/
def stringPatternMatches (pattern : StringPattern) (s : String) : Bool :=
  if pattern.Empty && ((s.length == 0) == pattern.Not) then false
  else if (pattern.Prefix != "") && (stringsHasPrefix s pattern.Prefix == pattern.Not) then false
  else if (pattern.PathPrefix != "") && (pathPrefixMatched pattern.PathPrefix s == pattern.Not) then false
  else if (pattern.Suffix != "") && (stringsHasSuffix s pattern.Suffix == pattern.Not) then false
  else if (pattern.Exactly != "") && ((pattern.Exactly == s) == pattern.Not) then false
  else if (pattern.Contains != "") && (stringsContains s pattern.Contains == pattern.Not) then false
  else true

/-- `stringPatternIsEmpty` (`pattern.go` lines 394-396): no sub-field of
the pattern is populated (`Not` is not a sub-field). -/
def stringPatternIsEmpty (p : StringPattern) : Bool :=
  !p.Empty && p.Prefix == "" && p.PathPrefix == "" && p.Suffix == "" &&
    p.Exactly == "" && p.Contains == ""

/-- The `matched` boolean of one `Exists` entry of
`stringMapPatternMatches`: some map entry matches both the key and the
value pattern. -/
def existsPairMatched (kv : StringMapKeyValuePattern) (stringMap : List (String × String)) : Bool :=
  stringMap.any fun e => stringPatternMatches kv.Key e.1 && stringPatternMatches kv.Value e.2

/-- The `matched` boolean of one `All` entry of
`stringMapPatternMatches`: every map entry whose key matches the key
pattern has a value matching the value pattern, and entries whose key
does not match are only tolerated when the value pattern is populated. -/
def allPairMatched (kv : StringMapKeyValuePattern) (stringMap : List (String × String)) : Bool :=
  stringMap.all fun e =>
    if stringPatternMatches kv.Key e.1 then stringPatternMatches kv.Value e.2
    else !(stringPatternIsEmpty kv.Value)

/-- `stringMapPatternMatches` (`pattern.go` lines 308-351).  For each
listed pair the per-pair decision is compared against `pattern.Not`;
a pair whose decision equals `Not` refutes the whole pattern. -/
def stringMapPatternMatches (pattern : StringMapPattern) (stringMap : List (String × String)) : Bool :=
  (pattern.Exists.all fun kv => existsPairMatched kv stringMap != pattern.Not) &&
  (pattern.All.all fun kv => allPairMatched kv stringMap != pattern.Not)

/-- Wire representation of an applied middleware as exposed to later
middleware (`mountpoint.AppliedMiddleware`): a name and the changes it
made. -/
structure AppliedMiddleware where
  Name : String := ""
  Changes : Changes := {}
deriving DecidableEq, Repr

/-- `mountpoint.ChangesPattern` / `MountPointAttachmentPattern`: a
description of a class of middleware changes. -/
structure ChangesPattern where
  EffectiveSource : List StringPattern := []
  Consistency : Option String := none
deriving DecidableEq, Repr

/-- `mountpoint.AppliedMiddlewarePattern`: a description of a class of
applied middleware. -/
structure AppliedMiddlewarePattern where
  Name : List StringPattern := []
  Changes : ChangesPattern := {}
deriving DecidableEq, Repr

/-- `mountpoint.AppliedMiddlewareStackPattern`: six quantifiers and
their negations over the applied middleware stack. -/
structure AppliedMiddlewareStackPattern where
  Exists : List AppliedMiddlewarePattern := []
  NotExists : List AppliedMiddlewarePattern := []
  All : List AppliedMiddlewarePattern := []
  NotAll : List AppliedMiddlewarePattern := []
  AnySequence : List AppliedMiddlewarePattern := []
  NotAnySequence : List AppliedMiddlewarePattern := []
  TopSequence : List AppliedMiddlewarePattern := []
  NotTopSequence : List AppliedMiddlewarePattern := []
  BottomSequence : List AppliedMiddlewarePattern := []
  NotBottomSequence : List AppliedMiddlewarePattern := []
  RelativeOrder : List AppliedMiddlewarePattern := []
  NotRelativeOrder : List AppliedMiddlewarePattern := []
deriving DecidableEq, Repr

/-- `mountPointAttachmentPatternMatches` (`pattern.go` lines 293-306). -/
def mountPointAttachmentPatternMatches (pattern : ChangesPattern) (attachment : Changes) : Bool :=
  (pattern.EffectiveSource.all fun p => stringPatternMatches p attachment.EffectiveSource) &&
  (match pattern.Consistency with
   | some c => c == attachment.Consistency
   | none => true)

/-- `appliedMiddlewarePatternMatches` (`pattern.go` lines 279-291). -/
def appliedMiddlewarePatternMatches (pattern : AppliedMiddlewarePattern) (appliedMiddleware : AppliedMiddleware) : Bool :=
  (pattern.Name.all fun sp => stringPatternMatches sp appliedMiddleware.Name) &&
  mountPointAttachmentPatternMatches pattern.Changes appliedMiddleware.Changes

/-- `middlewareExist` (`pattern.go` lines 140-156): each listed pattern
must match at least one stack element (decision compared to `not`). -/
def middlewareExist (patterns : List AppliedMiddlewarePattern)
    (middleware : List AppliedMiddleware) (not : Bool) : Bool :=
  patterns.all fun p =>
    (middleware.any fun m => appliedMiddlewarePatternMatches p m) != not

/-- `middlewareAll` (`pattern.go` lines 158-174): each listed pattern
must match every stack element (decision compared to `not`). -/
def middlewareAll (patterns : List AppliedMiddlewarePattern)
    (middleware : List AppliedMiddleware) (not : Bool) : Bool :=
  patterns.all fun p =>
    (middleware.all fun m => appliedMiddlewarePatternMatches p m) != not

/-- The inner `matched` test of `middlewareAnySequence` at offset `i`:
the patterns match the stack elements starting at index `i`. -/
def sequenceMatchedAt (patterns : List AppliedMiddlewarePattern)
    (middleware : List AppliedMiddleware) (i : Nat) : Bool :=
  (patterns.zip (middleware.drop i)).all fun pm =>
    appliedMiddlewarePatternMatches pm.1 pm.2

/-- `middlewareAnySequence` (`pattern.go` lines 176-204): the patterns
must match a contiguous run somewhere in the stack; a pattern list
longer than the stack fails the positive form and passes the negative
one. -/
def middlewareAnySequence (patterns : List AppliedMiddlewarePattern)
    (middleware : List AppliedMiddleware) (not : Bool) : Bool :=
  let n := patterns.length
  let c := middleware.length
  if n > 0 then
    if n ≤ c then
      ((List.range (c - n + 1)).any fun i => sequenceMatchedAt patterns middleware i) != not
    else not
  else true

/-- `middlewareTopSequence` (`pattern.go` lines 206-227): the patterns
must match the run starting at index 0 of the stack slice. -/
def middlewareTopSequence (patterns : List AppliedMiddlewarePattern)
    (middleware : List AppliedMiddleware) (not : Bool) : Bool :=
  let n := patterns.length
  let c := middleware.length
  if n > 0 then
    if n ≤ c then sequenceMatchedAt patterns middleware 0 != not
    else not
  else true

/-- `middlewareBottomSequence` (`pattern.go` lines 229-251): the
patterns must match the run ending at the last index of the stack
slice. -/
def middlewareBottomSequence (patterns : List AppliedMiddlewarePattern)
    (middleware : List AppliedMiddleware) (not : Bool) : Bool :=
  let n := patterns.length
  let c := middleware.length
  if n > 0 then
    if n ≤ c then sequenceMatchedAt patterns middleware (c - n) != not
    else not
  else true

/-- The greedy subsequence scan of `middlewareRelativeOrder`: consume
the pattern list along the stack, dropping the front pattern whenever
it matches the current element; return the unconsumed patterns. -/
def relativeOrderRemaining (patterns : List AppliedMiddlewarePattern)
    (middleware : List AppliedMiddleware) : List AppliedMiddlewarePattern :=
  middleware.foldl (fun rem m =>
    match rem with
    | [] => []
    | p :: rest => if appliedMiddlewarePatternMatches p m then rest else p :: rest) patterns

/-- `middlewareRelativeOrder` (`pattern.go` lines 253-277): the patterns
must appear, in order, as a (not necessarily contiguous) subsequence of
the stack. -/
def middlewareRelativeOrder (patterns : List AppliedMiddlewarePattern)
    (middleware : List AppliedMiddleware) (not : Bool) : Bool :=
  let n := patterns.length
  let c := middleware.length
  if n > 0 then
    if n ≤ c then (relativeOrderRemaining patterns middleware == []) != not
    else not
  else true

/-- `appliedMiddlewareStackPatternMatches` (`pattern.go` lines 93-138). -/
def appliedMiddlewareStackPatternMatches (pattern : AppliedMiddlewareStackPattern)
    (appliedMiddleware : List AppliedMiddleware) : Bool :=
  middlewareExist pattern.Exists appliedMiddleware false &&
  middlewareExist pattern.NotExists appliedMiddleware true &&
  middlewareAll pattern.All appliedMiddleware false &&
  middlewareAll pattern.NotAll appliedMiddleware true &&
  middlewareAnySequence pattern.AnySequence appliedMiddleware false &&
  middlewareAnySequence pattern.NotAnySequence appliedMiddleware true &&
  middlewareTopSequence pattern.TopSequence appliedMiddleware false &&
  middlewareTopSequence pattern.NotTopSequence appliedMiddleware true &&
  middlewareBottomSequence pattern.BottomSequence appliedMiddleware false &&
  middlewareBottomSequence pattern.NotBottomSequence appliedMiddleware true &&
  middlewareRelativeOrder pattern.RelativeOrder appliedMiddleware false &&
  middlewareRelativeOrder pattern.NotRelativeOrder appliedMiddleware true

/-- Wire representation of a mount point (`mountpoint.MountPoint`).
`Type`, `Propagation`, `Consistency` and `Scope` are Go string types and
stay strings; the Go maps become association lists. -/
structure WireMountPoint where
  EffectiveSource : String := ""
  Source : String := ""
  Destination : String := ""
  ReadOnly : Bool := false
  Name : String := ""
  Driver : String := ""
  «Type» : String := ""
  Mode : String := ""
  Propagation : String := ""
  ID : String := ""
  AppliedMiddleware : List AppliedMiddleware := []
  Consistency : String := ""
  Labels : List (String × String) := []
  DriverOptions : List (String × String) := []
  Scope : String := ""
  SizeBytes : Int := 0
  MountMode : Nat := 0
  Options : List (String × String) := []
deriving DecidableEq, Repr

/-- `mountpoint.Pattern` (`MountPointPattern`): a conjunction of
optional sub-patterns on the wire mount point fields.  (The `Options`
field of the Go struct is carried on the wire but never consulted by
`PatternMatches`, so it is omitted here.) -/
structure MountPointPattern where
  EffectiveSource : List StringPattern := []
  Source : List StringPattern := []
  Destination : List StringPattern := []
  ReadOnly : Option Bool := none
  Name : List StringPattern := []
  Driver : List StringPattern := []
  «Type» : Option String := none
  Mode : List StringPattern := []
  Propagation : Option String := none
  ID : List StringPattern := []
  AppliedMiddleware : AppliedMiddlewareStackPattern := {}
  Consistency : Option String := none
  Labels : List StringMapPattern := []
  DriverOptions : List StringMapPattern := []
  Scope : Option String := none
deriving DecidableEq, Repr

/-- `PatternMatches` (`pattern.go` lines 11-91): every present
sub-pattern must hold.  Note the source checks the `Labels`,
`DriverOptions` and `Scope` sub-patterns but never the `Options` one. -/
def PatternMatches (pattern : MountPointPattern) (mount : WireMountPoint) : Bool :=
  (pattern.EffectiveSource.all fun p => stringPatternMatches p mount.EffectiveSource) &&
  (pattern.Source.all fun p => stringPatternMatches p mount.Source) &&
  (pattern.Destination.all fun p => stringPatternMatches p mount.Destination) &&
  (match pattern.ReadOnly with | some b => b == mount.ReadOnly | none => true) &&
  (pattern.Name.all fun p => stringPatternMatches p mount.Name) &&
  (pattern.Driver.all fun p => stringPatternMatches p mount.Driver) &&
  (match pattern.«Type» with | some t => t == mount.«Type» | none => true) &&
  (pattern.Mode.all fun p => stringPatternMatches p mount.Mode) &&
  (match pattern.Propagation with | some pr => pr == mount.Propagation | none => true) &&
  (pattern.ID.all fun p => stringPatternMatches p mount.ID) &&
  appliedMiddlewareStackPatternMatches pattern.AppliedMiddleware mount.AppliedMiddleware &&
  (match pattern.Consistency with | some c => c == mount.Consistency | none => true) &&
  (pattern.Labels.all fun p => stringMapPatternMatches p mount.Labels) &&
  (pattern.DriverOptions.all fun p => stringMapPatternMatches p mount.DriverOptions) &&
  (match pattern.Scope with | some sc => sc == mount.Scope | none => true)

/-- `mountpoint.AttachRequest`: the body of one attach RPC. -/
structure AttachRequest where
  ID : String
  Mounts : List WireMountPoint
deriving DecidableEq, Repr

/-- `mountpoint.Attachment`: one per-mount decision of an attach
response. -/
structure Attachment where
  Attach : Bool := false
  Changes : Changes := {}
deriving DecidableEq, Repr

/-- `mountpoint.AttachResponse`. -/
structure AttachResponse where
  Success : Bool := false
  Attachments : List Attachment := []
  Err : String := ""
deriving DecidableEq, Repr

/-- `mountpoint.DetachRequest`. -/
structure DetachRequest where
  ID : String
deriving DecidableEq, Repr

/-- `mountpoint.DetachResponse`. -/
structure DetachResponse where
  Success : Bool := false
  Recoverable : Bool := false
  Err : String := ""
deriving DecidableEq, Repr

/-- A `mountpoint.Middleware`: a name, the advertised (cached) patterns,
and the two interposition RPCs.  An RPC is modelled as a pure function
from request to `Except String response`; the `.error` case is the Go
`err != nil` (transport) outcome. -/
structure Middleware where
  name : String
  patterns : List MountPointPattern
  attach : AttachRequest → Except String AttachResponse
  detach : DetachRequest → Except String DetachResponse

/-- `volume.AppliedMountPointMiddleware` (`part_000` lines 788-793): the
record pushed onto a mount's applied stack.  The unexported
`middleware` pointer caches the middleware object for later detach; it
is absent for stacks deserialized after a host restart. -/
structure AppliedMountPointMiddleware where
  Name : String
  middleware : Option Middleware
  Attachment : Changes
  Clock : Int

/-- The part of `volume.MountPoint` consulted by the chain executor.
`Spec.VolumeOptions`, `Spec.TmpfsOptions` and the `DetailedVolume` cast
of `mp.Volume` are modelled as options (`none` is the Go nil /
failed-cast case). -/
structure VolumeOptions where
  Labels : List (String × String) := []
  DriverOptions : List (String × String) := []

/-- Model of `mp.Spec.TmpfsOptions`. -/
structure TmpfsOptions where
  SizeBytes : Int := 0
  Mode : Nat := 0

/-- Model of the `DetailedVolume` view of `mp.Volume`. -/
structure DetailedVolume where
  scope : String := ""
  options : List (String × String) := []

/-- `volume.MountPoint`, restricted to the fields the chain executor
reads or writes. -/
structure MountPoint where
  Source : String := ""
  Destination : String := ""
  RW : Bool := true
  Name : String := ""
  Driver : String := ""
  «Type» : String := ""
  Mode : String := ""
  Propagation : String := ""
  ID : String := ""
  SpecConsistency : String := ""
  VolumeOptions : Option VolumeOptions := none
  TmpfsOptions : Option TmpfsOptions := none
  Detailed : Option DetailedVolume := none
  AppliedMiddleware : List AppliedMountPointMiddleware := []

/-- `MountPoint.EffectiveSource`'s stack walk (`part_000` lines 815-823):
scan the stack from the top (the reversed list) and return the first
non-empty `Attachment.EffectiveSource`. -/
def effectiveSourceLoop : List AppliedMountPointMiddleware → String → String
  | [], src => src
  | a :: rest, src =>
    if a.Attachment.EffectiveSource != "" then a.Attachment.EffectiveSource
    else effectiveSourceLoop rest src

/-- `MountPoint.EffectiveSource` (`part_000` lines 815-823). -/
def MountPoint.EffectiveSource (m : MountPoint) : String :=
  effectiveSourceLoop m.AppliedMiddleware.reverse m.Source

/-- `MountPoint.PushMiddleware` (`part_000` lines 827-835): append a new
applied middleware (with the middleware object cached) to the stack. -/
def MountPoint.PushMiddleware (m : MountPoint) (middleware : Middleware)
    (attachment : Changes) (clock : Int) : MountPoint :=
  { m with AppliedMiddleware :=
      m.AppliedMiddleware ++ [⟨middleware.name, some middleware, attachment, clock⟩] }

/-- `MountPoint.PopMiddleware` (`part_000` lines 839-847): remove and
return the top of the stack (`none` on an empty stack). -/
def MountPoint.PopMiddleware (m : MountPoint) :
    Option AppliedMountPointMiddleware × MountPoint :=
  match m.AppliedMiddleware.getLast? with
  | some a => (some a, { m with AppliedMiddleware := m.AppliedMiddleware.dropLast })
  | none => (none, m)

/-- `MountPoint.TopClock` (`part_000` lines 851-857): the clock of the
top of the stack, `0` for an empty stack. -/
def MountPoint.TopClock (m : MountPoint) : Int :=
  match m.AppliedMiddleware.getLast? with
  | some a => a.Clock
  | none => 0

/-- `mountPointTypeOfAPIType` (`part_002` lines 249-260): known mount
type strings map to themselves, anything else to the zero value. -/
def mountPointTypeOfAPIType (t : String) : String :=
  if t = "bind" then "bind"
  else if t = "volume" then "volume"
  else if t = "tmpfs" then "tmpfs"
  else ""

/-- `middlewareAppliedMiddlewareOfAppliedMiddleware` (`part_002` lines
304-313): project the applied stack onto the wire shape. -/
def middlewareAppliedMiddlewareOfAppliedMiddleware
    (middleware : List AppliedMountPointMiddleware) : List AppliedMiddleware :=
  middleware.map fun m => { Name := m.Name, Changes := m.Attachment }

/-- `middlewareMountPointOfMountPoint` (`part_002` lines 262-302):
translate the runtime's mount point into the wire shape handed to
middleware. -/
def middlewareMountPointOfMountPoint (mp : MountPoint) : WireMountPoint :=
  { Source := mp.Source
    EffectiveSource := mp.EffectiveSource
    Destination := mp.Destination
    ReadOnly := !mp.RW
    Name := mp.Name
    Driver := mp.Driver
    «Type» := mountPointTypeOfAPIType mp.«Type»
    Mode := mp.Mode
    Propagation := mp.Propagation
    ID := mp.ID
    Consistency := mp.SpecConsistency
    Labels := match mp.VolumeOptions with | some vo => vo.Labels | none => []
    DriverOptions := match mp.VolumeOptions with | some vo => vo.DriverOptions | none => []
    Scope := match mp.Detailed with | some v => v.scope | none => ""
    Options := match mp.Detailed with | some v => v.options | none => []
    SizeBytes := match mp.TmpfsOptions with | some t => t.SizeBytes | none => 0
    MountMode := match mp.TmpfsOptions with | some t => t.Mode | none => 0
    AppliedMiddleware := middlewareAppliedMiddlewareOfAppliedMiddleware mp.AppliedMiddleware }

/-- One reified RPC of the chain executor: an attach RPC (with the
per-pass clock current when it was issued) or a detach RPC (with the
round's clock value). -/
inductive ChainEvent where
  | attach (middlewareName : String) (clock : Int) (request : AttachRequest)
  | detach (middlewareName : String) (clock : Int) (container : String)
deriving DecidableEq, Repr

/-- The middleware name of an event. -/
def ChainEvent.name : ChainEvent → String
  | .attach n _ _ => n
  | .detach n _ _ => n

/-- The clock of an event. -/
def ChainEvent.clock : ChainEvent → Int
  | .attach _ c _ => c
  | .detach _ c _ => c

/-- The mount-selection loop of `AttachMounts` (`part_002` lines 50-58),
keeping each selected mount's position in the input list: a mount is
selected when any advertised pattern matches its wire shape. -/
def selectedMounts (middleware : Middleware) (mounts : List MountPoint) :
    List (Nat × MountPoint) :=
  mounts.enum.filter fun im =>
    middleware.patterns.any fun pattern =>
      PatternMatches pattern (middlewareMountPointOfMountPoint im.2)

/-- Replace the mount at position `idx` by `f` of it. -/
def updateMount : List MountPoint → Nat → (MountPoint → MountPoint) → List MountPoint
  | [], _, _ => []
  | m :: rest, 0, f => f m :: rest
  | m :: rest, n + 1, f => m :: updateMount rest n f

/-- The annotation loop of `AttachMounts` (`part_002` lines 75-83):
pair the response's `Attachments` with the selected positions (the
`zip` realizes both the `k >= len(selectedMounts)` break, discarding
excess attachments, and the implicit no-push for selected mounts
without a response entry) and push onto each mount whose attachment
has `Attach` set. -/
def applyAttachments (middleware : Middleware) (clock : Int) (selIdx : List Nat)
    (attachments : List Attachment) (mounts : List MountPoint) : List MountPoint :=
  (selIdx.zip attachments).foldl (fun ms ia =>
    if ia.2.Attach then
      updateMount ms ia.1 (fun m => m.PushMiddleware middleware ia.2.Changes clock)
    else ms) mounts

/-- The body of one iteration of the `AttachMounts` middleware loop
(`part_002` lines 44-85), after the clock increment: select mounts,
and if any were selected issue the attach RPC and annotate.  The
`.error` result carries the middleware name and the original error
(transport error, or `response.Err` when `Success` is false) for
`unwindAttachOnErr`. -/
def attachStep (id : String) (middleware : Middleware) (clock : Int)
    (mounts : List MountPoint) :
    Except (String × String) (List MountPoint × Option ChainEvent) :=
  let selected := selectedMounts middleware mounts
  if selected.length > 0 then
    let pmounts := selected.map fun im => middlewareMountPointOfMountPoint im.2
    let request : AttachRequest := ⟨id, pmounts⟩
    match middleware.attach request with
    | .error e => .error (middleware.name, e)
    | .ok response =>
      if !response.Success then .error (middleware.name, response.Err)
      else
        .ok (applyAttachments middleware clock (selected.map (·.1)) response.Attachments mounts,
          some (.attach middleware.name clock request))
  else .ok (mounts, none)

/-- The middleware loop of `AttachMounts` (`part_002` lines 42-85): the
local clock is incremented once per chain position, before selection;
an RPC failure stops the loop, carrying the middleware name and error.
Returns the mounts, the attach events, the final clock and the failure
if any. -/
def attachLoop (id : String) (mws : List Middleware) (clock : Int)
    (mounts : List MountPoint) (events : List ChainEvent) :
    List MountPoint × List ChainEvent × Int × Option (String × String) :=
  match mws with
  | [] => (mounts, events, clock, none)
  | mw :: rest =>
    match attachStep id mw (clock + 1) mounts with
    | .error e => (mounts, events, clock + 1, some e)
    | .ok (mounts', ev) => attachLoop id rest (clock + 1) mounts' (events ++ ev.toList)

/-- `stackError` (`part_002` lines 187-192): wrap `err` in `errString`
(`errors.Wrap` renders as `"<errString>: <err>"`), or make a new error
from `errString` when `err` is nil. -/
def stackError (err : Option String) (errString : String) : String :=
  match err with
  | none => errString
  | some e => errString ++ ": " ++ e

/-- `mountpoint.PluginNameOfMiddlewareName` (`middleware.go` lines
33-40): strip the `plugin:` prefix, or return `""` for non-plugin
names. -/
def PluginNameOfMiddlewareName (middlewareName : String) : String :=
  if stringsHasPrefix middlewareName "plugin:" then
    ⟨middlewareName.data.drop "plugin:".length⟩
  else ""

/-- `AppliedMountPointMiddleware.Middleware` (`part_000` lines 796-811):
return the cached middleware object, or re-construct a plugin handle
from the name.  `newMountPointPlugin` models
`mountpoint.NewMountPointPlugin` (plugin registry lookup, not under
`src/`); a non-plugin name without a cached object is an error. -/
def AppliedMountPointMiddleware.resolveMiddleware
    (newMountPointPlugin : String → Except String Middleware)
    (p : AppliedMountPointMiddleware) : Except String Middleware :=
  match p.middleware with
  | some m => .ok m
  | none =>
    let pname := PluginNameOfMiddlewareName p.Name
    if pname = "" then .error ("non-plugin middleware " ++ p.Name ++ " not found")
    else newMountPointPlugin pname

/-- `max` (`part_002` lines 195-200). -/
def goMax (a b : Int) : Int :=
  if a < b then b else a

/-- The max-clock scan of `unwind` (`part_002` lines 129-135). -/
def maxTopClock (mounts : List MountPoint) : Int :=
  mounts.foldl (fun acc m => goMax m.TopClock acc) 0

/-- The two early-return errors of the pop loop of `unwind`: a
middleware retrieval failure (later wrapped over the accumulated error
by `stackError`) and a name inconsistency (returned bare). -/
inductive PopErr where
  | retrieval (errString : String)
  | inconsistency (errString : String)

/-- The pop loop of one `unwind` round (`part_002` lines 139-163): pop
every mount whose top clock is not below `maxClock`, resolving the
middleware object from the first popped entry and checking every later
popped entry bears the same middleware name.  Returns the mounts as
mutated so far even on an early error return. -/
def popLoop (newMountPointPlugin : String → Except String Middleware) (maxClock : Int) :
    List MountPoint → Option Middleware →
    List MountPoint × Except PopErr (Option Middleware)
  | [], mw => ([], .ok mw)
  | m :: rest, mw =>
    if m.TopClock < maxClock then
      let (rest', r) := popLoop newMountPointPlugin maxClock rest mw
      (m :: rest', r)
    else
      match m.PopMiddleware with
      | (none, m') =>
        let (rest', r) := popLoop newMountPointPlugin maxClock rest mw
        (m' :: rest', r)
      | (some applied, m') =>
        match mw with
        | none =>
          match applied.resolveMiddleware newMountPointPlugin with
          | .error e =>
            (m' :: rest, .error (.retrieval
              ("unwind middleware retrieval error: \x22" ++ e ++ "\x22")))
          | .ok mwNew =>
            let (rest', r) := popLoop newMountPointPlugin maxClock rest (some mwNew)
            (m' :: rest', r)
        | some mwCur =>
          if mwCur.name != applied.Name then
            (m' :: rest, .error (.inconsistency
              ("middleware inconsistency " ++ mwCur.name ++ " != " ++ applied.Name)))
          else
            let (rest', r) := popLoop newMountPointPlugin maxClock rest (some mwCur)
            (m' :: rest', r)

/-- Total number of applied middleware entries across a mount list; the
termination measure of the unwind loop. -/
def totalSize (mounts : List MountPoint) : Nat :=
  (mounts.map fun m => m.AppliedMiddleware.length).sum

theorem popMiddleware_size (m : MountPoint) :
    ((m.PopMiddleware).2).AppliedMiddleware.length ≤ m.AppliedMiddleware.length := by
  unfold MountPoint.PopMiddleware
  cases h : m.AppliedMiddleware.getLast? <;> simp [List.length_dropLast]

theorem popMiddleware_size_lt (m : MountPoint) (h : m.AppliedMiddleware ≠ []) :
    ((m.PopMiddleware).2).AppliedMiddleware.length < m.AppliedMiddleware.length := by
  unfold MountPoint.PopMiddleware
  cases hl : m.AppliedMiddleware.getLast? with
  | none => exact absurd (List.getLast?_eq_none_iff.mp hl) h
  | some a =>
    have : m.AppliedMiddleware.length ≠ 0 := fun h0 => h (List.length_eq_zero.mp h0)
    simp [List.length_dropLast]
    omega

theorem topClock_pos_nonempty (m : MountPoint) (h : 0 < m.TopClock) :
    m.AppliedMiddleware ≠ [] := by
  intro hnil
  unfold MountPoint.TopClock at h
  rw [hnil] at h
  simp at h

theorem popLoop_size_le (newPlugin : String → Except String Middleware) (maxClock : Int)
    (ms : List MountPoint) (mw : Option Middleware) :
    totalSize (popLoop newPlugin maxClock ms mw).1 ≤ totalSize ms := by
  induction ms generalizing mw with
  | nil => simp [popLoop]
  | cons m rest ih =>
    unfold popLoop
    by_cases hc : m.TopClock < maxClock
    · simp only [hc, if_true, totalSize, List.map_cons, List.sum_cons]
      have := ih mw
      simp only [totalSize] at this
      omega
    · simp only [hc, if_false]
      rcases hp : m.PopMiddleware with ⟨popped, m'⟩
      have hm' : m'.AppliedMiddleware.length ≤ m.AppliedMiddleware.length := by
        have := popMiddleware_size m
        rw [hp] at this
        exact this
      cases popped with
      | none =>
        simp only [totalSize, List.map_cons, List.sum_cons]
        have := ih mw
        simp only [totalSize] at this
        omega
      | some applied =>
        cases mw with
        | none =>
          cases hr : applied.resolveMiddleware newPlugin with
          | error e =>
            simp only [hr, totalSize, List.map_cons, List.sum_cons]
            omega
          | ok mwNew =>
            simp only [hr, totalSize, List.map_cons, List.sum_cons]
            have := ih (some mwNew)
            simp only [totalSize] at this
            omega
        | some mwCur =>
          cases hn : (mwCur.name != applied.Name) with
          | true =>
            simp only [hn, totalSize, List.map_cons, List.sum_cons, if_true]
            omega
          | false =>
            have := ih (some mwCur)
            simp only [totalSize] at this
            simp only [hn, totalSize, List.map_cons, List.sum_cons, if_false,
              Bool.false_eq_true]
            omega

theorem popLoop_size_lt (newPlugin : String → Except String Middleware) (maxClock : Int)
    (ms : List MountPoint) (mw : Option Middleware)
    (hmc : 0 < maxClock) :
    (∃ m ∈ ms, maxClock ≤ m.TopClock) →
    totalSize (popLoop newPlugin maxClock ms mw).1 < totalSize ms := by
  induction ms generalizing mw with
  | nil =>
    rintro ⟨m, hm, _⟩
    exact absurd hm (List.not_mem_nil m)
  | cons m rest ih =>
    intro hex
    unfold popLoop
    by_cases hc : m.TopClock < maxClock
    · rcases hex with ⟨w, hw, hwc⟩
      rcases List.mem_cons.mp hw with rfl | hw'
      · omega
      · simp only [hc, if_true, totalSize, List.map_cons, List.sum_cons]
        have := ih mw ⟨w, hw', hwc⟩
        simp only [totalSize] at this
        omega
    · simp only [hc, if_false]
      have hpos : 0 < m.TopClock := by omega
      have hne : m.AppliedMiddleware ≠ [] := topClock_pos_nonempty m hpos
      rcases hp : m.PopMiddleware with ⟨popped, m'⟩
      have hm' : m'.AppliedMiddleware.length < m.AppliedMiddleware.length := by
        have := popMiddleware_size_lt m hne
        rw [hp] at this
        exact this
      have hrest := popLoop_size_le newPlugin maxClock rest
      cases popped with
      | none =>
        simp only [totalSize, List.map_cons, List.sum_cons]
        have := hrest mw
        simp only [totalSize] at this
        omega
      | some applied =>
        cases mw with
        | none =>
          cases hr : applied.resolveMiddleware newPlugin with
          | error e =>
            simp only [hr, totalSize, List.map_cons, List.sum_cons]
            omega
          | ok mwNew =>
            simp only [hr, totalSize, List.map_cons, List.sum_cons]
            have := hrest (some mwNew)
            simp only [totalSize] at this
            omega
        | some mwCur =>
          cases hn : (mwCur.name != applied.Name) with
          | true =>
            simp only [hn, totalSize, List.map_cons, List.sum_cons, if_true]
            omega
          | false =>
            have := hrest (some mwCur)
            simp only [totalSize] at this
            simp only [hn, totalSize, List.map_cons, List.sum_cons, if_false,
              Bool.false_eq_true]
            omega

theorem foldlGoMax_cases (ms : List MountPoint) (init : Int) :
    ms.foldl (fun acc m => goMax m.TopClock acc) init = init ∨
      ∃ m ∈ ms, ms.foldl (fun acc m => goMax m.TopClock acc) init = m.TopClock := by
  induction ms generalizing init with
  | nil => left; rfl
  | cons m rest ih =>
    simp only [List.foldl_cons]
    rcases ih (goMax m.TopClock init) with h | ⟨w, hw, hweq⟩
    · rw [h]
      unfold goMax
      by_cases hc : m.TopClock < init
      · left; simp [hc]
      · right; exact ⟨m, List.mem_cons_self m rest, by simp [hc]⟩
    · right; exact ⟨w, List.mem_cons_of_mem m hw, hweq⟩

theorem maxTopClock_mem (ms : List MountPoint) (h : 0 < maxTopClock ms) :
    ∃ m ∈ ms, m.TopClock = maxTopClock ms := by
  rcases foldlGoMax_cases ms 0 with h0 | ⟨w, hw, hweq⟩
  · unfold maxTopClock at h
    rw [h0] at h
    omega
  · exact ⟨w, hw, hweq.symm⟩

/-- The outcome of `unwind`: `done` is the normal loop exit (the
accumulated — necessarily recoverable — error, if any), `fatal` is any
early `return` (retrieval error, name inconsistency, detach transport
error, or unrecoverable detach failure). -/
inductive UnwindOutcome where
  | done (accErr : Option String)
  | fatal (err : String)
deriving DecidableEq, Repr

/-- The error value `unwind` returns to its caller: `done` yields the
accumulated error, `fatal` the early-returned one. -/
def UnwindOutcome.error : UnwindOutcome → Option String
  | .done e => e
  | .fatal e => some e

/-- The round loop of `unwind` (`part_002` lines 123-183).  Each
iteration finds the maximum top clock; when positive it pops every
mount bearing it, resolves the round's middleware, issues one detach
RPC (reified as one event), and then either continues (success, or
recoverable failure with the error accumulated) or stops (transport
error or unrecoverable failure).  When no positive clock remains the
accumulated error is returned.  The `(ms, .ok none)` pop result would
dereference a nil middleware pointer in Go; it is unreachable when the
maximum top clock is positive and modelled as a fatal outcome.  The
loop recurses on a fuel argument so that it stays structurally
recursive; every round with a positive clock pops at least one entry,
so any fuel above the total stack size never runs out
(`unwindLoop_fuel_irrelevant`), and the fuel-exhaustion arm is
unreachable from `unwind`. -/
def unwindLoop (newPlugin : String → Except String Middleware) (container : String) :
    Nat → List MountPoint → Option String → List ChainEvent →
    List MountPoint × List ChainEvent × UnwindOutcome
  | 0, ms, _, events => (ms, events, .fatal "unwind interrupted")
  | fuel + 1, ms, accErr, events =>
    let maxClock := maxTopClock ms
    if 0 < maxClock then
      match popLoop newPlugin maxClock ms none with
      | (ms', .error (.retrieval e)) => (ms', events, .fatal (stackError accErr e))
      | (ms', .error (.inconsistency e)) => (ms', events, .fatal e)
      | (ms', .ok none) => (ms', events, .fatal "nil middleware dereference")
      | (ms', .ok (some mw)) =>
        let events' := events ++ [.detach mw.name maxClock container]
        match mw.detach ⟨container⟩ with
        | .error e =>
          (ms', events', .fatal (stackError accErr
            ("unwind detach API error for " ++ mw.name ++ ": \x22" ++ e ++ "\x22")))
        | .ok response =>
          if !response.Success then
            let accErr' := stackError accErr
              ("unwind detach middleware " ++ mw.name ++ " error: \x22" ++ response.Err ++ "\x22")
            if !response.Recoverable then (ms', events', .fatal accErr')
            else unwindLoop newPlugin container fuel ms' (some accErr') events'
          else unwindLoop newPlugin container fuel ms' accErr events'
    else (ms, events, .done accErr)

/-- `unwind` (`part_002` lines 123-183): run the round loop with enough
fuel that it can only exit through the loop's own conditions. -/
def unwind (newPlugin : String → Except String Middleware) (container : String)
    (mounts : List MountPoint) : List MountPoint × List ChainEvent × UnwindOutcome :=
  unwindLoop newPlugin container (totalSize mounts + 1) mounts none []

/-- `MountPointChain.DetachMounts` (`part_002` lines 91-97): flatten the
`destination → mount` map into a list and unwind it. -/
def DetachMounts (newPlugin : String → Except String Middleware) (container : String)
    (mounts : List (String × MountPoint)) :
    List MountPoint × List ChainEvent × UnwindOutcome :=
  unwind newPlugin container (mounts.map (·.2))

/-- `MountPointChain.unwindAttachOnErr` (`part_002` lines 101-113): run
the detach algorithm over the mounts, wrap the original attach error in
the unwind error if there was one, and wrap the result in the
middleware's name (the deferred `errors.Wrap`). -/
def unwindAttachOnErr (newPlugin : String → Except String Middleware)
    (middlewareName container : String) (mounts : List MountPoint) (err : String) :
    List MountPoint × List ChainEvent × String :=
  let (mounts', devents, outcome) := unwind newPlugin container mounts
  let ret := match outcome.error with
    | some e => e ++ ": " ++ err
    | none => err
  (mounts', devents, "middleware " ++ middlewareName ++ " failed with error: " ++ ret)

/-- `MountPointChain.AttachMounts` (`part_002` lines 38-88): run the
middleware loop from clock `0`; on failure unwind the full input list
and surface the wrapped error.  Returns the final mounts, the reified
RPC events (attach events, then the unwind's detach events if the pass
failed) and the returned error. -/
def AttachMounts (newPlugin : String → Except String Middleware) (id : String)
    (chain : List Middleware) (mounts : List MountPoint) :
    List MountPoint × List ChainEvent × Option String :=
  match attachLoop id chain 0 mounts [] with
  | (mounts', events, _, none) => (mounts', events, none)
  | (mounts', events, _, some (mwName, err)) =>
    let (mounts'', devents, msg) := unwindAttachOnErr newPlugin mwName id mounts' err
    (mounts'', events ++ devents, some msg)

theorem effectiveSourceLoop_eq_filter_head (r : List AppliedMountPointMiddleware) (src : String) :
    effectiveSourceLoop r src =
      match (r.filter fun a => a.Attachment.EffectiveSource != "").head? with
      | some a => a.Attachment.EffectiveSource
      | none => src := by
  induction r with
  | nil => rfl
  | cons a rest ih =>
    unfold effectiveSourceLoop
    by_cases h : a.Attachment.EffectiveSource != ""
    · simp [h]
    · simp only [List.filter_cons]
      simp at h
      simp [h, ih]

/-- C7: `MountPoint.EffectiveSource` returns the `EffectiveSource` of
the topmost (last-pushed) applied-middleware entry whose recorded
change carries a non-empty `EffectiveSource`, or the mount's original
`Source` when no such entry exists (in particular on an empty stack). -/
theorem C7_mount_effectiveSource (m : MountPoint) :
    m.EffectiveSource =
      match (m.AppliedMiddleware.filter fun a => a.Attachment.EffectiveSource != "").getLast? with
      | some a => a.Attachment.EffectiveSource
      | none => m.Source := by
  unfold MountPoint.EffectiveSource
  rw [effectiveSourceLoop_eq_filter_head]
  rw [List.filter_reverse, List.head?_reverse]

theorem if_guard_false (g r : Bool) : (if g = true then false else r) = (!g && r) := by
  cases g <;> simp

theorem stringPatternMatches_eq_conj (p : StringPattern) (s : String) :
    stringPatternMatches p s =
      ((!p.Empty || ((s.length == 0) != p.Not)) &&
       ((p.Prefix == "") || (stringsHasPrefix s p.Prefix != p.Not)) &&
       ((p.PathPrefix == "") || (pathPrefixMatched p.PathPrefix s != p.Not)) &&
       ((p.Suffix == "") || (stringsHasSuffix s p.Suffix != p.Not)) &&
       ((p.Exactly == "") || ((p.Exactly == s) != p.Not)) &&
       ((p.Contains == "") || (stringsContains s p.Contains != p.Not))) := by
  unfold stringPatternMatches
  rw [if_guard_false, if_guard_false, if_guard_false, if_guard_false, if_guard_false,
    if_guard_false]
  simp only [Bool.not_and, bne, Bool.not_not, Bool.and_true, Bool.and_assoc]

/-- Modelled from the spec's words for C8: the conjunction of the
matches of the populated sub-fields of a string pattern (ignoring
`Not`). -/
def specStringPatternConjunction (p : StringPattern) (s : String) : Bool :=
  (!p.Empty || (s.length == 0)) &&
  ((p.Prefix == "") || stringsHasPrefix s p.Prefix) &&
  ((p.PathPrefix == "") || pathPrefixMatched p.PathPrefix s) &&
  ((p.Suffix == "") || stringsHasSuffix s p.Suffix) &&
  ((p.Exactly == "") || (p.Exactly == s)) &&
  ((p.Contains == "") || stringsContains s p.Contains)

/-- C8, counterexample: with `Not` set and two populated sub-fields of
which exactly one matches (`Prefix = "a"` matches `"ab"`, `Suffix = "z"`
does not), the evaluator returns `false` while the negation of the
conjunction of the populated sub-field matches is `true`. -/
theorem C8_counterexample :
    ¬ (stringPatternMatches { Not := true, Prefix := "a", Suffix := "z" } "ab" =
       !(specStringPatternConjunction { Not := true, Prefix := "a", Suffix := "z" } "ab")) := by
  decide

/-- C8, amended: an unpopulated string pattern matches everything
regardless of `Not`; and when `Not` is set the pattern matches exactly
when every populated sub-field individually fails to match — the
negation applies to each populated sub-field separately (equivalently,
it is the negation of the disjunction of the sub-field matches), not
the negation of their conjunction. -/
theorem C8_amended (p : StringPattern) (s : String) :
    (stringPatternIsEmpty p = true → stringPatternMatches p s = true) ∧
    (p.Not = true → stringPatternMatches p s =
      ((!p.Empty || !(s.length == 0)) &&
       ((p.Prefix == "") || !(stringsHasPrefix s p.Prefix)) &&
       ((p.PathPrefix == "") || !(pathPrefixMatched p.PathPrefix s)) &&
       ((p.Suffix == "") || !(stringsHasSuffix s p.Suffix)) &&
       ((p.Exactly == "") || !(p.Exactly == s)) &&
       ((p.Contains == "") || !(stringsContains s p.Contains)))) := by
  constructor
  · intro h
    unfold stringPatternIsEmpty at h
    rw [stringPatternMatches_eq_conj]
    simp only [Bool.and_eq_true, Bool.not_eq_true'] at h
    obtain ⟨⟨⟨⟨⟨hE, hP⟩, hPP⟩, hS⟩, hX⟩, hC⟩ := h
    simp [hE, hP, hPP, hS, hX, hC]
  · intro h
    rw [stringPatternMatches_eq_conj, h]
    simp [Bool.bne_true]

/-- C8 amended, witness: the empty pattern with `Not` set matches a
non-empty string, and the per-field form evaluates accordingly. -/
theorem C8_amended_witness :
    (stringPatternIsEmpty { Not := true } = true →
      stringPatternMatches { Not := true } "xyz" = true) ∧
    (StringPattern.Not { Not := true } = true →
      stringPatternMatches { Not := true } "xyz" =
      ((!StringPattern.Empty { Not := true } || !("xyz".length == 0)) &&
       ((StringPattern.Prefix { Not := true } == "") ||
         !(stringsHasPrefix "xyz" (StringPattern.Prefix { Not := true }))) &&
       ((StringPattern.PathPrefix { Not := true } == "") ||
         !(pathPrefixMatched (StringPattern.PathPrefix { Not := true }) "xyz")) &&
       ((StringPattern.Suffix { Not := true } == "") ||
         !(stringsHasSuffix "xyz" (StringPattern.Suffix { Not := true }))) &&
       ((StringPattern.Exactly { Not := true } == "") ||
         !(StringPattern.Exactly { Not := true } == "xyz")) &&
       ((StringPattern.Contains { Not := true } == "") ||
         !(stringsContains "xyz" (StringPattern.Contains { Not := true }))))) :=
  C8_amended { Not := true } "xyz"


/-- C9, counterexample: with one `Exists` pair that matches the map
`{"a" ↦ "x"}` and one `All` pair that fails on it, the evaluator
returns `false` both with `Not` set and with `Not` clear, so setting
`Not` is not the negation of the joint decision. -/
theorem C9_counterexample :
    ¬ (stringMapPatternMatches
        { Not := true, Exists := [{ Key := { Exactly := "a" } }],
          All := [{ Value := { Exactly := "y" } }] } [("a", "x")] =
       !(stringMapPatternMatches
        { Not := false, Exists := [{ Key := { Exactly := "a" } }],
          All := [{ Value := { Exactly := "y" } }] } [("a", "x")])) := by
  decide

/-- C9, amended: `Not` inverts each listed pair's decision
individually, not the two collections jointly: the pattern matches
exactly when every `Exists` pair's decision and every `All` pair's
decision equals the negation of `Not`; and a pattern whose `Exists` and
`All` lists are both empty matches every map regardless of `Not`. -/
theorem C9_amended (not : Bool) (E A : List StringMapKeyValuePattern)
    (m : List (String × String)) :
    (stringMapPatternMatches { Not := not, Exists := E, All := A } m = true ↔
      ((∀ kv ∈ E, existsPairMatched kv m = !not) ∧
       (∀ kv ∈ A, allPairMatched kv m = !not))) ∧
    stringMapPatternMatches { Not := not, Exists := [], All := [] } m = true := by
  constructor
  · unfold stringMapPatternMatches
    simp only [Bool.and_eq_true, List.all_eq_true]
    constructor
    · rintro ⟨hE, hA⟩
      exact ⟨fun kv hkv => by have := hE kv hkv; cases not <;> simp_all,
             fun kv hkv => by have := hA kv hkv; cases not <;> simp_all⟩
    · rintro ⟨hE, hA⟩
      exact ⟨fun kv hkv => by have := hE kv hkv; cases not <;> simp_all,
             fun kv hkv => by have := hA kv hkv; cases not <;> simp_all⟩
  · rfl

/-- C9 amended, witness at a concrete input. -/
theorem C9_amended_witness :
    (stringMapPatternMatches
        { Not := true, Exists := [{ Key := { Exactly := "a" } }], All := [] } [("a", "x")] = true ↔
      ((∀ kv ∈ [({ Key := { Exactly := "a" } } : StringMapKeyValuePattern)],
          existsPairMatched kv [("a", "x")] = !true) ∧
       (∀ kv ∈ ([] : List StringMapKeyValuePattern), allPairMatched kv [("a", "x")] = !true))) ∧
    stringMapPatternMatches { Not := true, Exists := [], All := [] } [("a", "x")] = true :=
  C9_amended true [{ Key := { Exactly := "a" } }] [] [("a", "x")]


theorem updateMount_length (ms : List MountPoint) (i : Nat) (f : MountPoint → MountPoint) :
    (updateMount ms i f).length = ms.length := by
  induction ms generalizing i with
  | nil => rfl
  | cons m rest ih =>
    cases i with
    | zero => rfl
    | succ n => simp [updateMount, ih]

theorem updateMount_getElem_ne (ms : List MountPoint) (i : Nat) (f : MountPoint → MountPoint)
    (k : Nat) (h : k ≠ i) : (updateMount ms i f)[k]? = ms[k]? := by
  induction ms generalizing i k with
  | nil => rfl
  | cons m rest ih =>
    cases i with
    | zero =>
      cases k with
      | zero => exact absurd rfl h
      | succ j => simp [updateMount]
    | succ n =>
      cases k with
      | zero => simp [updateMount]
      | succ j => simpa [updateMount] using ih n j (fun hj => h (by omega))

theorem updateMount_getElem_eq (ms : List MountPoint) (i : Nat) (f : MountPoint → MountPoint)
    (m : MountPoint) (h : ms[i]? = some m) : (updateMount ms i f)[i]? = some (f m) := by
  induction ms generalizing i with
  | nil => simp at h
  | cons m0 rest ih =>
    cases i with
    | zero => simp_all [updateMount]
    | succ n => simpa [updateMount] using ih n (by simpa using h)

theorem applyAttachments_spec (mw : Middleware) (clock : Int) (selIdx : List Nat)
    (atts : List Attachment) (mounts : List MountPoint) (hnd : selIdx.Nodup) :
    (∀ k : Nat, k ∉ selIdx → (applyAttachments mw clock selIdx atts mounts)[k]? = mounts[k]?) ∧
    (∀ (j i : Nat) (a : Attachment) (m : MountPoint),
      selIdx[j]? = some i → atts[j]? = some a → mounts[i]? = some m →
      (applyAttachments mw clock selIdx atts mounts)[i]? =
        some (if a.Attach then m.PushMiddleware mw a.Changes clock else m)) ∧
    (∀ j i : Nat, selIdx[j]? = some i → atts[j]? = none →
      (applyAttachments mw clock selIdx atts mounts)[i]? = mounts[i]?) := by
  induction selIdx generalizing atts mounts with
  | nil =>
    refine ⟨fun k _ => rfl, fun j i a m hj _ _ => by simp at hj, fun j i hj _ => by simp at hj⟩
  | cons i0 is ih =>
    have hnd' : is.Nodup := hnd.of_cons
    have hni : i0 ∉ is := by
      have := List.nodup_cons.mp hnd
      exact this.1
    cases atts with
    | nil =>
      have : applyAttachments mw clock (i0 :: is) [] mounts = mounts := by
        simp [applyAttachments]
      refine ⟨fun k _ => by rw [this], fun j i a m _ ha _ => by simp at ha,
        fun j i hj _ => by rw [this]⟩
    | cons a0 as =>
      have hstep : applyAttachments mw clock (i0 :: is) (a0 :: as) mounts =
          applyAttachments mw clock is as
            (if a0.Attach then
              updateMount mounts i0 (fun m => m.PushMiddleware mw a0.Changes clock)
            else mounts) := by
        simp only [applyAttachments, List.zip_cons_cons, List.foldl_cons]
      set ms' := (if a0.Attach then
          updateMount mounts i0 (fun m => m.PushMiddleware mw a0.Changes clock)
        else mounts) with hms'
      have hne : ∀ k, k ≠ i0 → ms'[k]? = mounts[k]? := by
        intro k hk
        rw [hms']
        split
        · exact updateMount_getElem_ne mounts i0 _ k hk
        · rfl
      obtain ⟨ihA, ihB, ihC⟩ := ih as ms' hnd'
      refine ⟨?_, ?_, ?_⟩
      · intro k hk
        rw [hstep]
        have hk0 : k ≠ i0 := fun h => hk (h ▸ List.mem_cons_self i0 is)
        have hkis : k ∉ is := fun h => hk (List.mem_cons_of_mem i0 h)
        rw [ihA k hkis, hne k hk0]
      · intro j i a m hj ha hm
        cases j with
        | zero =>
          simp only [List.getElem?_cons_zero, Option.some.injEq] at hj ha
          subst hj; subst ha
          rw [hstep, ihA i0 hni, hms']
          split
          · exact updateMount_getElem_eq mounts i0 _ m hm
          · simpa using hm
        | succ n =>
          simp only [List.getElem?_cons_succ] at hj ha
          have hii0 : i ≠ i0 := by
            intro h
            subst h
            exact hni (List.getElem?_mem hj)
          rw [hstep]
          exact ihB n i a m hj ha (by rw [hne i hii0]; exact hm)
      · intro j i hj ha
        cases j with
        | zero => simp at ha
        | succ n =>
          simp only [List.getElem?_cons_succ] at hj ha
          have hii0 : i ≠ i0 := by
            intro h
            subst h
            exact hni (List.getElem?_mem hj)
          rw [hstep, ihC n i hj ha, hne i hii0]


theorem enumFrom_mem_getElem? (l : List MountPoint) (n : Nat) :
    ∀ p ∈ l.enumFrom n, n ≤ p.1 ∧ l[p.1 - n]? = some p.2 := by
  induction l generalizing n with
  | nil => intro p hp; simp [List.enumFrom] at hp
  | cons m rest ih =>
    intro p hp
    rcases List.mem_cons.mp hp with rfl | hp'
    · simp
    · obtain ⟨h1, h2⟩ := ih (n + 1) p hp'
      refine ⟨by omega, ?_⟩
      have : p.1 - n = (p.1 - (n + 1)) + 1 := by omega
      rw [this]
      simpa using h2

theorem selectedMounts_mem (mw : Middleware) (mounts : List MountPoint) :
    ∀ p ∈ selectedMounts mw mounts, mounts[p.1]? = some p.2 := by
  intro p hp
  have hpe : p ∈ mounts.enum := List.mem_of_mem_filter hp
  have := enumFrom_mem_getElem? mounts 0 p hpe
  simpa using this.2

theorem selectedMounts_idx_nodup (mw : Middleware) (mounts : List MountPoint) :
    ((selectedMounts mw mounts).map (·.1)).Nodup := by
  have hsub : List.Sublist (selectedMounts mw mounts) mounts.enum := List.filter_sublist _
  have hmap : List.Sublist ((selectedMounts mw mounts).map (·.1)) (mounts.enum.map (·.1)) :=
    hsub.map _
  have : (mounts.enum.map (·.1)).Nodup := by
    have := List.enum_map_fst mounts
    simp only [show (fun (x : Nat × MountPoint) => x.1) = Prod.fst from rfl]
    rw [this]
    exact List.nodup_range _
  exact this.sublist hmap

/-- C10: after a successful attach RPC, the response's `Attachments`
are paired positionally with the selected mounts: the mount selected at
position `j` gets `AppliedMiddleware{mw.name, a.Changes, clock}` pushed
exactly when `Attachments[j]` exists with `Attach = true`; response
entries beyond the selected count touch nothing, selected mounts with
no response entry are unchanged, and unselected mounts are unchanged. -/
theorem C10_attach_response_pairing (mw : Middleware) (clock : Int)
    (atts : List Attachment) (mounts : List MountPoint) (selIdx : List Nat)
    (hsel : selIdx = (selectedMounts mw mounts).map (·.1)) :
    (∀ k : Nat, k ∉ selIdx → (applyAttachments mw clock selIdx atts mounts)[k]? = mounts[k]?) ∧
    (∀ (j i : Nat) (a : Attachment) (m : MountPoint),
      selIdx[j]? = some i → atts[j]? = some a → mounts[i]? = some m →
      (applyAttachments mw clock selIdx atts mounts)[i]? =
        some (if a.Attach then m.PushMiddleware mw a.Changes clock else m)) ∧
    (∀ j i : Nat, selIdx[j]? = some i → atts[j]? = none →
      (applyAttachments mw clock selIdx atts mounts)[i]? = mounts[i]?) :=
  applyAttachments_spec mw clock selIdx atts mounts
    (hsel ▸ selectedMounts_idx_nodup mw mounts)


/-- Concrete fixture: an attach RPC that succeeds and attaches every
offered mount with the given changes. -/
def egOkAttach (ch : Changes) : AttachRequest → Except String AttachResponse :=
  fun req => .ok { Success := true
                   Attachments := req.Mounts.map fun _ => { Attach := true, Changes := ch } }

/-- Concrete fixture: a detach RPC that succeeds. -/
def egOkDetach : DetachRequest → Except String DetachResponse :=
  fun _ => .ok { Success := true }

/-- Concrete fixture: a middleware matching every mount. -/
def egMwAll : Middleware :=
  { name := "plugin:alpha", patterns := [{}], attach := egOkAttach {}, detach := egOkDetach }

/-- Concrete fixture: a middleware matching bind mounts only and
rewriting the effective source. -/
def egMwBind : Middleware :=
  { name := "plugin:beta"
    patterns := [{ «Type» := some "bind" }]
    attach := egOkAttach { EffectiveSource := "/var/run/p1/newdir" }
    detach := egOkDetach }

/-- Concrete fixture: a middleware advertising no patterns, so it never
selects a mount and never receives an RPC. -/
def egMwNone : Middleware :=
  { name := "plugin:none", patterns := [], attach := egOkAttach {}, detach := egOkDetach }

/-- Concrete fixture: a middleware whose attach RPC reports failure in
the response body (`Success=false`). -/
def egMwFail : Middleware :=
  { name := "plugin:fail"
    patterns := [{}]
    attach := fun _ => .ok { Success := false, Err := "boom" }
    detach := egOkDetach }

/-- Concrete fixture: a plugin registry with no plugins. -/
def egNoPlugin : String → Except String Middleware :=
  fun n => .error ("no plugin " ++ n)

/-- Concrete fixture: a bind mount. -/
def egMount0 : MountPoint :=
  { Source := "/src", Destination := "/dst", «Type» := "bind" }

/-- Concrete fixture: a local volume mount. -/
def egMount1 : MountPoint :=
  { Source := "/v", Destination := "/data", «Type» := "volume", Driver := "local" }

/-- C10, witness: one middleware that selects the single mount, with a
one-entry attaching response. -/
theorem C10_attach_response_pairing_witness :
    ([0] = (selectedMounts egMwAll [egMount0]).map (·.1)) ∧
    ((∀ k : Nat, k ∉ [0] →
        (applyAttachments egMwAll 1 [0] [{ Attach := true }] [egMount0])[k]? = [egMount0][k]?) ∧
     (∀ (j i : Nat) (a : Attachment) (m : MountPoint),
        [0][j]? = some i → [({ Attach := true } : Attachment)][j]? = some a →
        [egMount0][i]? = some m →
        (applyAttachments egMwAll 1 [0] [{ Attach := true }] [egMount0])[i]? =
          some (if a.Attach then m.PushMiddleware egMwAll a.Changes 1 else m)) ∧
     (∀ j i : Nat, [0][j]? = some i → [({ Attach := true } : Attachment)][j]? = none →
        (applyAttachments egMwAll 1 [0] [{ Attach := true }] [egMount0])[i]? = [egMount0][i]?)) :=
  ⟨by decide, C10_attach_response_pairing egMwAll 1 [{ Attach := true }] [egMount0] [0] (by decide)⟩


/-- An applied entry explainable as a push by chain position `j`
(0-based) of `mws` in a pass whose clock started at `c0`: its clock is
`c0 + j + 1`, and its name and cached middleware are those of the
middleware at that position. -/
def entryFromChain (mws : List Middleware) (c0 : Int) (e : AppliedMountPointMiddleware) : Prop :=
  ∃ (j : Nat) (mw : Middleware), mws[j]? = some mw ∧
    e.Clock = c0 + j + 1 ∧ e.Name = mw.name ∧ e.middleware = some mw

theorem entryFromChain_cons (mw : Middleware) (mws : List Middleware) (c0 : Int)
    (e : AppliedMountPointMiddleware) (h : entryFromChain mws (c0 + 1) e) :
    entryFromChain (mw :: mws) c0 e := by
  obtain ⟨j, mw', hj, hc, hn, hm⟩ := h
  exact ⟨j + 1, mw', by simpa using hj, by omega, hn, hm⟩

theorem entryFromChain_clock_lt (mws : List Middleware) (c0 : Int)
    (e : AppliedMountPointMiddleware) (h : entryFromChain mws c0 e) :
    c0 < e.Clock ∧ e.Clock ≤ c0 + mws.length := by
  obtain ⟨j, mw', hj, hc, _, _⟩ := h
  have : j < mws.length := by
    by_contra hge
    rw [List.getElem?_eq_none (by omega)] at hj
    cases hj
  omega

theorem applyAttachments_length (mw : Middleware) (clock : Int) (selIdx : List Nat)
    (atts : List Attachment) (mounts : List MountPoint) :
    (applyAttachments mw clock selIdx atts mounts).length = mounts.length := by
  unfold applyAttachments
  generalize selIdx.zip atts = pairs
  induction pairs generalizing mounts with
  | nil => rfl
  | cons p rest ih =>
    simp only [List.foldl_cons]
    rw [ih]
    split
    · exact updateMount_length mounts p.1 _
    · rfl

theorem attachStep_stacks (id : String) (mw : Middleware) (c : Int)
    (mounts mounts1 : List MountPoint) (ev : Option ChainEvent)
    (h : attachStep id mw c mounts = .ok (mounts1, ev)) :
    mounts1.length = mounts.length ∧
    ∀ (k : Nat) (m : MountPoint), mounts[k]? = some m →
      mounts1[k]? = some m ∨
      ∃ ch : Changes, mounts1[k]? = some (m.PushMiddleware mw ch c) := by
  unfold attachStep at h
  by_cases hs : (selectedMounts mw mounts).length > 0
  · simp only [hs, if_true] at h
    cases hr : mw.attach ⟨id, (selectedMounts mw mounts).map fun im =>
        middlewareMountPointOfMountPoint im.2⟩ with
    | error e => simp only [hr] at h; cases h
    | ok response =>
      simp only [hr] at h
      split at h
      · cases h
      · injection h with h1
        injection h1 with hm1 hev
        subst hm1
        constructor
        · exact applyAttachments_length mw c _ _ mounts
        · intro k m hm
          obtain ⟨hA, hB, hC⟩ := applyAttachments_spec mw c
            ((selectedMounts mw mounts).map (·.1)) response.Attachments mounts
            (selectedMounts_idx_nodup mw mounts)
          by_cases hk : k ∈ (selectedMounts mw mounts).map (·.1)
          · obtain ⟨j, hj⟩ := List.mem_iff_getElem?.mp hk
            cases ha : response.Attachments[j]? with
            | none => left; rw [hC j k hj ha, hm]
            | some a =>
              have := hB j k a m hj ha hm
              by_cases hat : a.Attach
              · right
                exact ⟨a.Changes, by rw [this]; simp [hat]⟩
              · left
                rw [this]
                simp [hat, hm]
          · left; rw [hA k hk, hm]
  · simp only [hs, if_false, Except.ok.injEq, Prod.mk.injEq] at h
    obtain ⟨hm1, _⟩ := h
    subst hm1
    exact ⟨rfl, fun k m hm => Or.inl hm⟩


theorem attachLoop_stacks (id : String) (mws : List Middleware) (c0 : Int)
    (mounts : List MountPoint) (evs : List ChainEvent) :
    (attachLoop id mws c0 mounts evs).1.length = mounts.length ∧
    ((attachLoop id mws c0 mounts evs).2.2.2 = none →
      (attachLoop id mws c0 mounts evs).2.2.1 = c0 + mws.length) ∧
    (∀ (k : Nat) (m : MountPoint), mounts[k]? = some m →
      ∃ tail : List AppliedMountPointMiddleware,
        (attachLoop id mws c0 mounts evs).1[k]? =
          some { m with AppliedMiddleware := m.AppliedMiddleware ++ tail } ∧
        (∀ e ∈ tail, entryFromChain mws c0 e) ∧
        tail.Pairwise (fun e1 e2 => e1.Clock < e2.Clock)) := by
  induction mws generalizing c0 mounts evs with
  | nil =>
    refine ⟨rfl, by intro _; simp [attachLoop], ?_⟩
    intro k m hm
    exact ⟨[], by simpa [attachLoop] using hm, by simp, by simp⟩
  | cons mw rest ih =>
    cases hstep : attachStep id mw (c0 + 1) mounts with
    | error e =>
      have hred : attachLoop id (mw :: rest) c0 mounts evs = (mounts, evs, c0 + 1, some e) := by
        unfold attachLoop
        simp only [hstep]
      refine ⟨?_, ?_, ?_⟩
      · rw [hred]
      · rw [hred]; intro h; cases h
      · intro k m hm
        exact ⟨[], by rw [hred]; simpa using hm, by simp, by simp⟩
    | ok res =>
      obtain ⟨mounts1, ev⟩ := res
      have hred : attachLoop id (mw :: rest) c0 mounts evs =
          attachLoop id rest (c0 + 1) mounts1 (evs ++ ev.toList) := by
        conv_lhs => rw [attachLoop]
        simp only [hstep]
      obtain ⟨hlen1, hstk1⟩ := attachStep_stacks id mw (c0 + 1) mounts mounts1 ev hstep
      obtain ⟨ihl, ihc, ihs⟩ := ih (c0 + 1) mounts1 (evs ++ ev.toList)
      refine ⟨?_, ?_, ?_⟩
      · rw [hred]; exact ihl.trans hlen1
      · rw [hred]
        intro h
        have := ihc h
        rw [this]
        simp only [List.length_cons]
        push_cast
        ring
      · intro k m hm
        rcases hstk1 k m hm with hsame | ⟨ch, hpush⟩
        · obtain ⟨tail, htl, hent, hpw⟩ := ihs k m hsame
          exact ⟨tail, by rw [hred]; exact htl,
            fun e he => entryFromChain_cons mw rest c0 e (hent e he), hpw⟩
        · obtain ⟨tail, htl, hent, hpw⟩ := ihs k (m.PushMiddleware mw ch (c0 + 1)) hpush
          refine ⟨⟨mw.name, some mw, ch, c0 + 1⟩ :: tail, ?_, ?_, ?_⟩
          · rw [hred, htl]
            simp [MountPoint.PushMiddleware]
          · intro e he
            rcases List.mem_cons.mp he with rfl | he'
            · exact ⟨0, mw, by simp, by simp, rfl, rfl⟩
            · exact entryFromChain_cons mw rest c0 e (hent e he')
          · refine List.Pairwise.cons ?_ hpw
            intro e he
            have := (entryFromChain_clock_lt rest (c0 + 1) e (hent e he)).1
            simpa using this


theorem entryFromChain_cons_elim (mw : Middleware) (rest : List Middleware) (c0 : Int)
    (e : AppliedMountPointMiddleware) (h : entryFromChain (mw :: rest) c0 e) :
    (e.Name = mw.name ∧ e.Clock = c0 + 1) ∨ entryFromChain rest (c0 + 1) e := by
  obtain ⟨j, mw', hj, hc, hn, hm⟩ := h
  cases j with
  | zero =>
    left
    simp only [List.getElem?_cons_zero, Option.some.injEq] at hj
    subst hj
    exact ⟨hn, by simpa using hc⟩
  | succ jj =>
    right
    exact ⟨jj, mw', by simpa using hj, by push_cast at hc ⊢; omega, hn, hm⟩

theorem entries_names_sublist (mws : List Middleware) (c0 : Int)
    (tail : List AppliedMountPointMiddleware)
    (hent : ∀ e ∈ tail, entryFromChain mws c0 e)
    (hpw : tail.Pairwise (fun e1 e2 => e1.Clock < e2.Clock)) :
    List.Sublist (tail.map (·.Name)) (mws.map (·.name)) := by
  induction mws generalizing c0 tail with
  | nil =>
    cases tail with
    | nil => simp
    | cons e t =>
      obtain ⟨j, mw', hj, _⟩ := hent e (List.mem_cons_self e t)
      simp at hj
  | cons mw rest ih =>
    cases tail with
    | nil => simp
    | cons e t =>
      have hpwt : t.Pairwise (fun e1 e2 => e1.Clock < e2.Clock) := hpw.of_cons
      have hlt : ∀ e' ∈ t, e.Clock < e'.Clock := fun x hx =>
        List.rel_of_pairwise_cons hpw hx
      have htrest : ∀ e' ∈ t, entryFromChain rest (c0 + 1) e' := by
        intro e' he'
        rcases entryFromChain_cons_elim mw rest c0 e' (hent e' (List.mem_cons_of_mem e he')) with
          ⟨_, hc⟩ | hr
        · exfalso
          have h1 := hlt e' he'
          rcases entryFromChain_cons_elim mw rest c0 e (hent e (List.mem_cons_self e t)) with
            ⟨_, hce⟩ | hre
          · omega
          · have := (entryFromChain_clock_lt rest (c0 + 1) e hre).1
            omega
        · exact hr
      rcases entryFromChain_cons_elim mw rest c0 e (hent e (List.mem_cons_self e t)) with
        ⟨hn, _⟩ | hre
      · simp only [List.map_cons]
        rw [hn]
        exact (ih (c0 + 1) t htrest hpwt).cons₂ mw.name
      · have hte : ∀ e' ∈ e :: t, entryFromChain rest (c0 + 1) e' := by
          intro e' he'
          rcases List.mem_cons.mp he' with rfl | he''
          · exact hre
          · exact htrest e' he''
        simp only [List.map_cons]
        exact List.Sublist.cons mw.name (ih (c0 + 1) (e :: t) hte hpw)


theorem AttachMounts_ok_eq (newPlugin : String → Except String Middleware)
    (id : String) (chain : List Middleware) (mounts m1 : List MountPoint)
    (e1 : List ChainEvent) (c1 : Int)
    (hal : attachLoop id chain 0 mounts [] = (m1, e1, c1, none)) :
    AttachMounts newPlugin id chain mounts = (m1, e1, none) := by
  unfold AttachMounts
  rw [hal]

theorem AttachMounts_err_eq (newPlugin : String → Except String Middleware)
    (id : String) (chain : List Middleware) (mounts m1 m2 : List MountPoint)
    (e1 devs : List ChainEvent) (c1 : Int) (mwName errMsg msg : String)
    (hal : attachLoop id chain 0 mounts [] = (m1, e1, c1, some (mwName, errMsg)))
    (hu : unwindAttachOnErr newPlugin mwName id m1 errMsg = (m2, devs, msg)) :
    AttachMounts newPlugin id chain mounts = (m2, e1 ++ devs, some msg) := by
  unfold AttachMounts
  simp only [hal]
  simp only [hu]

theorem attachMounts_ok_elim (newPlugin : String → Except String Middleware)
    (id : String) (chain : List Middleware) (mounts mounts' : List MountPoint)
    (evs : List ChainEvent)
    (h : AttachMounts newPlugin id chain mounts = (mounts', evs, none)) :
    ∃ c : Int, attachLoop id chain 0 mounts [] = (mounts', evs, c, none) := by
  rcases hal : attachLoop id chain 0 mounts [] with ⟨m1, e1, c1, err⟩
  cases err with
  | none =>
    rw [AttachMounts_ok_eq newPlugin id chain mounts m1 e1 c1 hal] at h
    injection h with h1 h2
    injection h2 with h2 h3
    subst h1; subst h2
    exact ⟨c1, rfl⟩
  | some pr =>
    obtain ⟨mwName, errMsg⟩ := pr
    rcases hu : unwindAttachOnErr newPlugin mwName id m1 errMsg with ⟨m2, devs, msg⟩
    rw [AttachMounts_err_eq newPlugin id chain mounts m1 m2 e1 devs c1 mwName errMsg msg
      hal hu] at h
    injection h with h1 h2
    injection h2 with h2 h3
    cases h3

/-- C2, counterexample: with the chain `[egMwNone, egMwAll]` (the first
middleware selects nothing, so it issues no RPC) the pass issues exactly
one attach RPC, yet the single entry pushed at that — first and only —
RPC-issuing position carries clock `2`, not `1`: clocks count all chain
positions, not only the RPC-issuing ones. -/
theorem C2_counterexample :
    ((AttachMounts egNoPlugin "c" [egMwNone, egMwAll] [egMount0]).2.2 = none) ∧
    ((AttachMounts egNoPlugin "c" [egMwNone, egMwAll] [egMount0]).2.1.length = 1) ∧
    ((AttachMounts egNoPlugin "c" [egMwNone, egMwAll] [egMount0]).1.map
        (fun m => m.AppliedMiddleware.map fun e => (e.Name, e.Clock))
      = [[("plugin:alpha", 2)]]) ∧
    ¬ ((AttachMounts egNoPlugin "c" [egMwNone, egMwAll] [egMount0]).1.map
        (fun m => m.AppliedMiddleware.map fun e => (e.Name, e.Clock))
      = [[("plugin:alpha", 1)]]) := by
  exact ⟨rfl, rfl, rfl, by decide⟩

/-- C2, amended: for every attach pass that returns without error and
every input mount, the pass appends a tail of applied entries whose
names form a subsequence of the chain's names in chain order, whose
clocks are strictly increasing, and whose every entry carries
`Clock = j + 1` for the chain position `j` (0-based, counting all
positions — not only the RPC-issuing ones) of the middleware that
pushed it. -/
theorem C2_amended (newPlugin : String → Except String Middleware)
    (id : String) (chain : List Middleware) (mounts mounts' : List MountPoint)
    (evs : List ChainEvent)
    (h : AttachMounts newPlugin id chain mounts = (mounts', evs, none)) :
    ∀ (k : Nat) (m : MountPoint), mounts[k]? = some m →
      ∃ tail : List AppliedMountPointMiddleware,
        mounts'[k]? = some { m with AppliedMiddleware := m.AppliedMiddleware ++ tail } ∧
        List.Sublist (tail.map (·.Name)) (chain.map (·.name)) ∧
        (∀ e ∈ tail, ∃ (j : Nat) (mw : Middleware), chain[j]? = some mw ∧
          e.Clock = j + 1 ∧ e.Name = mw.name) ∧
        tail.Pairwise (fun e1 e2 => e1.Clock < e2.Clock) := by
  obtain ⟨c, hal⟩ := attachMounts_ok_elim newPlugin id chain mounts mounts' evs h
  obtain ⟨-, -, hstk⟩ := attachLoop_stacks id chain 0 mounts []
  intro k m hm
  obtain ⟨tail, htl, hent, hpw⟩ := hstk k m hm
  rw [hal] at htl
  refine ⟨tail, htl, entries_names_sublist chain 0 tail hent hpw, ?_, hpw⟩
  intro e he
  obtain ⟨j, mw, hj, hc, hn, _⟩ := hent e he
  exact ⟨j, mw, hj, by omega, hn⟩

/-- C2 amended, witness: the counterexample chain run through the
amended statement. -/
theorem C2_amended_witness :
    (AttachMounts egNoPlugin "c" [egMwNone, egMwAll] [egMount0] =
      ([{ egMount0 with AppliedMiddleware := [⟨"plugin:alpha", some egMwAll, {}, 2⟩] }],
       [ChainEvent.attach "plugin:alpha" 2 ⟨"c", [middlewareMountPointOfMountPoint egMount0]⟩],
       none)) ∧
    (∀ (k : Nat) (m : MountPoint), [egMount0][k]? = some m →
      ∃ tail : List AppliedMountPointMiddleware,
        [{ egMount0 with AppliedMiddleware := [⟨"plugin:alpha", some egMwAll, {}, 2⟩] }][k]? =
          some { m with AppliedMiddleware := m.AppliedMiddleware ++ tail } ∧
        List.Sublist (tail.map (·.Name)) ([egMwNone, egMwAll].map (·.name)) ∧
        (∀ e ∈ tail, ∃ (j : Nat) (mw : Middleware), [egMwNone, egMwAll][j]? = some mw ∧
          e.Clock = j + 1 ∧ e.Name = mw.name) ∧
        tail.Pairwise (fun e1 e2 => e1.Clock < e2.Clock)) :=
  ⟨rfl, C2_amended egNoPlugin "c" [egMwNone, egMwAll] [egMount0] _ _ rfl⟩


/-- C5: the per-pass clock starts at `0` and is incremented exactly once
per chain position before selection.  An error-free pass therefore ends
with clock = chain length; a position whose selection is empty leaves
the state untouched and issues no RPC, yet still consumes its clock
value; and every pushed entry's clock is `j + 1` for the position `j`
of its middleware, counting all positions. -/
theorem C5_clock_allocation (newPlugin : String → Except String Middleware)
    (id : String) (chain : List Middleware) (mounts mounts' : List MountPoint)
    (evs : List ChainEvent)
    (ha : AttachMounts newPlugin id chain mounts = (mounts', evs, none)) :
    (attachLoop id chain 0 mounts []).2.2.1 = chain.length ∧
    (∀ (mw : Middleware) (c : Int) (ms : List MountPoint),
      selectedMounts mw ms = [] → attachStep id mw c ms = .ok (ms, none)) ∧
    (∀ (k : Nat) (m : MountPoint), mounts[k]? = some m →
      ∃ tail : List AppliedMountPointMiddleware,
        mounts'[k]? = some { m with AppliedMiddleware := m.AppliedMiddleware ++ tail } ∧
        ∀ e ∈ tail, ∃ (j : Nat) (mw : Middleware), chain[j]? = some mw ∧
          e.Clock = j + 1 ∧ e.Name = mw.name ∧ e.middleware = some mw) := by
  obtain ⟨c, hal⟩ := attachMounts_ok_elim newPlugin id chain mounts mounts' evs ha
  obtain ⟨-, hclk, hstk⟩ := attachLoop_stacks id chain 0 mounts []
  refine ⟨?_, ?_, ?_⟩
  · have h2 := hclk (by rw [hal])
    rw [hal] at h2
    have h3 : c = 0 + (chain.length : Int) := h2
    rw [hal]
    show c = (chain.length : Int)
    omega
  · intro mw c' ms hsel
    unfold attachStep
    rw [hsel]
    simp
  · intro k m hm
    obtain ⟨tail, htl, hent, _⟩ := hstk k m hm
    rw [hal] at htl
    refine ⟨tail, htl, ?_⟩
    intro e he
    obtain ⟨j, mw, hj, hc, hn, hmw⟩ := hent e he
    exact ⟨j, mw, hj, by omega, hn, hmw⟩

/-- C5, witness: the two-middleware fixture where the first position
selects nothing. -/
theorem C5_clock_allocation_witness :
    (AttachMounts egNoPlugin "c" [egMwNone, egMwAll] [egMount0] =
      ([{ egMount0 with AppliedMiddleware := [⟨"plugin:alpha", some egMwAll, {}, 2⟩] }],
       [ChainEvent.attach "plugin:alpha" 2 ⟨"c", [middlewareMountPointOfMountPoint egMount0]⟩],
       none)) ∧
    ((attachLoop "c" [egMwNone, egMwAll] 0 [egMount0] []).2.2.1 =
      ([egMwNone, egMwAll] : List Middleware).length ∧
     (∀ (mw : Middleware) (c : Int) (ms : List MountPoint),
       selectedMounts mw ms = [] → attachStep "c" mw c ms = .ok (ms, none)) ∧
     (∀ (k : Nat) (m : MountPoint), [egMount0][k]? = some m →
       ∃ tail : List AppliedMountPointMiddleware,
         [{ egMount0 with AppliedMiddleware := [⟨"plugin:alpha", some egMwAll, {}, 2⟩] }][k]? =
           some { m with AppliedMiddleware := m.AppliedMiddleware ++ tail } ∧
         ∀ e ∈ tail, ∃ (j : Nat) (mw : Middleware), [egMwNone, egMwAll][j]? = some mw ∧
           e.Clock = j + 1 ∧ e.Name = mw.name ∧ e.middleware = some mw)) :=
  ⟨rfl, C5_clock_allocation egNoPlugin "c" [egMwNone, egMwAll] [egMount0] _ _ rfl⟩


theorem totalSize_pos_of_maxTopClock_pos (ms : List MountPoint) (h : 0 < maxTopClock ms) :
    0 < totalSize ms := by
  obtain ⟨m, hm, heq⟩ := maxTopClock_mem ms h
  have hne : m.AppliedMiddleware ≠ [] := topClock_pos_nonempty m (by omega)
  have hlen : 1 ≤ m.AppliedMiddleware.length := by
    cases hl : m.AppliedMiddleware with
    | nil => exact absurd hl hne
    | cons a t => simp
  have hmem : m.AppliedMiddleware.length ∈ ms.map (fun m => m.AppliedMiddleware.length) :=
    List.mem_map_of_mem _ hm
  have := List.single_le_sum (fun x _ => Nat.zero_le x) _ hmem
  unfold totalSize
  omega

theorem unwindLoop_fuel_irrelevant (newPlugin : String → Except String Middleware)
    (container : String) :
    ∀ (n f1 f2 : Nat) (ms : List MountPoint) (accErr : Option String) (evs : List ChainEvent),
      totalSize ms ≤ n → totalSize ms < f1 → totalSize ms < f2 →
      unwindLoop newPlugin container f1 ms accErr evs =
        unwindLoop newPlugin container f2 ms accErr evs := by
  intro n
  induction n with
  | zero =>
    intro f1 f2 ms accErr evs hn h1 h2
    obtain ⟨a, rfl⟩ : ∃ a, f1 = a + 1 := ⟨f1 - 1, by omega⟩
    obtain ⟨b, rfl⟩ : ∃ b, f2 = b + 1 := ⟨f2 - 1, by omega⟩
    have hneg : ¬ 0 < maxTopClock ms := by
      intro hpos
      have := totalSize_pos_of_maxTopClock_pos ms hpos
      omega
    simp only [unwindLoop, hneg, if_false]
  | succ n ih =>
    intro f1 f2 ms accErr evs hn h1 h2
    obtain ⟨a, rfl⟩ : ∃ a, f1 = a + 1 := ⟨f1 - 1, by omega⟩
    obtain ⟨b, rfl⟩ : ∃ b, f2 = b + 1 := ⟨f2 - 1, by omega⟩
    by_cases hpos : 0 < maxTopClock ms
    · have hex : ∃ m ∈ ms, maxTopClock ms ≤ m.TopClock := by
        obtain ⟨m, hm, heq⟩ := maxTopClock_mem ms hpos
        exact ⟨m, hm, le_of_eq heq.symm⟩
      rcases hp : popLoop newPlugin (maxTopClock ms) ms none with ⟨ms', r⟩
      have hlt : totalSize ms' < totalSize ms := by
        have := popLoop_size_lt newPlugin (maxTopClock ms) ms none hpos hex
        rw [hp] at this
        exact this
      rcases r with e | mwo
      · rcases e with e | e <;> simp only [unwindLoop, hpos, if_true, hp]
      · rcases mwo with _ | mw
        · simp only [unwindLoop, hpos, if_true, hp]
        · simp only [unwindLoop, hpos, if_true, hp]
          cases hd : mw.detach ⟨container⟩ with
          | error e => simp only [hd]
          | ok response =>
            simp only [hd]
            by_cases hsc : response.Success = true
            · simp only [hsc, Bool.not_true, Bool.false_eq_true, if_false]
              exact ih a b ms' accErr _ (by omega) (by omega) (by omega)
            · have hsc' : response.Success = false := by
                cases hx : response.Success
                · rfl
                · exact absurd hx hsc
              simp only [hsc', Bool.not_false, if_true]
              by_cases hrc : response.Recoverable = true
              · simp only [hrc, Bool.not_true, Bool.false_eq_true, if_false]
                exact ih a b ms' _ _ (by omega) (by omega) (by omega)
              · have hrc' : response.Recoverable = false := by
                  cases hx : response.Recoverable
                  · rfl
                  · exact absurd hx hrc
                simp only [hrc', Bool.not_false, if_true]
    · simp only [unwindLoop, hpos, if_false]


/-- Concrete fixture: a middleware whose attach RPC fails at the
transport level (the plugin client surfaces the method name). -/
def egMwErr : Middleware :=
  { name := "plugin:err"
    patterns := [{}]
    attach := fun _ => .error "MountPointPlugin.MountPointAttach: conn refused"
    detach := egOkDetach }

/-- Modelled from the spec: the error string the plugin RPC client
(docker's `pkg/plugins`, not under `src/`) produces when the attach
HTTP call fails — the method name followed by the message:
`MountPointPlugin.MountPointAttach: <message>`. -/
def specPluginAttachTransportError (message : String) : String :=
  "MountPointPlugin.MountPointAttach: " ++ message

/-- C3, counterexample: when the middleware's attach RPC succeeds at
the transport level but reports `Success=false` with `Err="boom"`, the
surfaced error is `middleware plugin:fail failed with error: boom`; it
does not contain the claimed stable fragment
`MountPointPlugin.MountPointAttach`. -/
theorem C3_counterexample :
    (AttachMounts egNoPlugin "c" [egMwFail] [egMount0]).2.2 =
      some "middleware plugin:fail failed with error: boom" ∧
    stringsContains "middleware plugin:fail failed with error: boom"
      "MountPointPlugin.MountPointAttach" = false :=
  ⟨by decide, by decide⟩

/-- C3, amended: when the attach pass fails at a middleware (transport
error or `Success=false`), the executor runs the detach algorithm over
the full current mount list and surfaces the original error wrapped
with the failing middleware's name; when the unwind itself returns an
error it is wrapped around the original.  The stable text
`middleware <name> failed with error: MountPointPlugin.MountPointAttach:
<message>` arises in the transport-failure case, where the plugin
client prefixes the method name; a `Success=false` response yields
`middleware <name> failed with error: <Err>` without that prefix. -/
theorem C3_amended (newPlugin : String → Except String Middleware)
    (id : String) (chain : List Middleware) (mounts m1 : List MountPoint)
    (e1 : List ChainEvent) (c1 : Int) (mwName errMsg : String)
    (hal : attachLoop id chain 0 mounts [] = (m1, e1, c1, some (mwName, errMsg))) :
    ∃ (m2 : List MountPoint) (devs : List ChainEvent) (outcome : UnwindOutcome),
      unwind newPlugin id m1 = (m2, devs, outcome) ∧
      AttachMounts newPlugin id chain mounts =
        (m2, e1 ++ devs, some ("middleware " ++ mwName ++ " failed with error: " ++
          match outcome.error with
          | some e => e ++ ": " ++ errMsg
          | none => errMsg)) ∧
      (outcome.error = none → ∀ message : String,
        errMsg = specPluginAttachTransportError message →
        AttachMounts newPlugin id chain mounts =
          (m2, e1 ++ devs, some ("middleware " ++ mwName ++ " failed with error: " ++
            "MountPointPlugin.MountPointAttach: " ++ message))) := by
  rcases hu : unwind newPlugin id m1 with ⟨m2, devs, outcome⟩
  have huw : unwindAttachOnErr newPlugin mwName id m1 errMsg =
      (m2, devs, "middleware " ++ mwName ++ " failed with error: " ++
        match outcome.error with
        | some e => e ++ ": " ++ errMsg
        | none => errMsg) := by
    unfold unwindAttachOnErr
    simp only [hu]
  have hat := AttachMounts_err_eq newPlugin id chain mounts m1 m2 e1 devs c1 mwName errMsg
    _ hal huw
  refine ⟨m2, devs, outcome, rfl, ?_, ?_⟩
  · exact hat
  intro hnone message hmsg
  rw [hat, hnone, hmsg]
  unfold specPluginAttachTransportError
  congr 2
  rw [← String.append_assoc]

/-- C3 amended, witness: a single middleware failing at the transport
level over one mount with no prior attachments. -/
theorem C3_amended_witness :
    (attachLoop "c" [egMwErr] 0 [egMount0] [] =
      ([egMount0], [], 1,
        some ("plugin:err", "MountPointPlugin.MountPointAttach: conn refused"))) ∧
    (∃ (m2 : List MountPoint) (devs : List ChainEvent) (outcome : UnwindOutcome),
      unwind egNoPlugin "c" [egMount0] = (m2, devs, outcome) ∧
      AttachMounts egNoPlugin "c" [egMwErr] [egMount0] =
        (m2, [] ++ devs, some ("middleware " ++ "plugin:err" ++ " failed with error: " ++
          match outcome.error with
          | some e => e ++ ": " ++ "MountPointPlugin.MountPointAttach: conn refused"
          | none => "MountPointPlugin.MountPointAttach: conn refused")) ∧
      (outcome.error = none → ∀ message : String,
        "MountPointPlugin.MountPointAttach: conn refused" =
          specPluginAttachTransportError message →
        AttachMounts egNoPlugin "c" [egMwErr] [egMount0] =
          (m2, [] ++ devs, some ("middleware " ++ "plugin:err" ++ " failed with error: " ++
            "MountPointPlugin.MountPointAttach: " ++ message)))) :=
  ⟨rfl, C3_amended egNoPlugin "c" [egMwErr] [egMount0] [egMount0] [] 1 "plugin:err"
    "MountPointPlugin.MountPointAttach: conn refused" rfl⟩


theorem getLast?_mem_self (l : List AppliedMountPointMiddleware)
    (a : AppliedMountPointMiddleware) (h : l.getLast? = some a) : a ∈ l := by
  obtain ⟨hne, heq⟩ := List.mem_getLast?_eq_getLast (show a ∈ l.getLast? from h)
  rw [heq]
  exact List.getLast_mem hne

theorem le_foldlGoMax (ms : List MountPoint) (init : Int) :
    init ≤ ms.foldl (fun acc m => goMax m.TopClock acc) init ∧
    ∀ m ∈ ms, m.TopClock ≤ ms.foldl (fun acc m => goMax m.TopClock acc) init := by
  induction ms generalizing init with
  | nil => exact ⟨le_refl init, fun m hm => absurd hm (List.not_mem_nil m)⟩
  | cons m rest ih =>
    obtain ⟨h1, h2⟩ := ih (goMax m.TopClock init)
    have hstep : init ≤ goMax m.TopClock init := by unfold goMax; split <;> omega
    have hself : m.TopClock ≤ goMax m.TopClock init := by unfold goMax; split <;> omega
    refine ⟨le_trans hstep h1, ?_⟩
    intro m' hm'
    rcases List.mem_cons.mp hm' with rfl | hm''
    · exact le_trans hself h1
    · exact h2 m' hm''

theorem topClock_le_maxTopClock (ms : List MountPoint) (m : MountPoint) (hm : m ∈ ms) :
    m.TopClock ≤ maxTopClock ms :=
  (le_foldlGoMax ms 0).2 m hm

theorem maxTopClock_nonneg (ms : List MountPoint) : 0 ≤ maxTopClock ms :=
  (le_foldlGoMax ms 0).1

theorem popMiddleware_stack_sublist (m : MountPoint) :
    List.Sublist ((m.PopMiddleware).2).AppliedMiddleware m.AppliedMiddleware := by
  unfold MountPoint.PopMiddleware
  cases h : m.AppliedMiddleware.getLast? <;> simp [List.dropLast_sublist]

theorem popLoop_shapes (newPlugin : String → Except String Middleware) (mc : Int) :
    ∀ (ms : List MountPoint) (mw0 : Option Middleware),
      ∀ m' ∈ (popLoop newPlugin mc ms mw0).1,
        ∃ m ∈ ms, m' = m ∨ m' = (m.PopMiddleware).2 := by
  intro ms
  induction ms with
  | nil => intro mw0 m' hm'; simp [popLoop] at hm'
  | cons m rest ih =>
    intro mw0 m' hm'
    unfold popLoop at hm'
    by_cases hc : m.TopClock < mc
    · simp only [hc, if_true] at hm'
      rcases List.mem_cons.mp hm' with rfl | hm''
      · exact ⟨m', List.mem_cons_self _ _, Or.inl rfl⟩
      · obtain ⟨w, hw, hww⟩ := ih _ m' hm''
        exact ⟨w, List.mem_cons_of_mem m hw, hww⟩
    · simp only [hc, if_false] at hm'
      rcases hp : m.PopMiddleware with ⟨popped, mp⟩
      rw [hp] at hm'
      have hmp : mp = (m.PopMiddleware).2 := by rw [hp]
      cases popped with
      | none =>
        simp only at hm'
        rcases List.mem_cons.mp hm' with rfl | hm''
        · exact ⟨m, List.mem_cons_self _ _, Or.inr hmp⟩
        · obtain ⟨w, hw, hww⟩ := ih _ m' hm''
          exact ⟨w, List.mem_cons_of_mem m hw, hww⟩
      | some applied =>
        cases mw0 with
        | none =>
          cases hr : applied.resolveMiddleware newPlugin with
          | error e =>
            simp only [hr] at hm'
            rcases List.mem_cons.mp hm' with rfl | hm''
            · exact ⟨m, List.mem_cons_self _ _, Or.inr hmp⟩
            · exact ⟨m', List.mem_cons_of_mem m hm'', Or.inl rfl⟩
          | ok mwNew =>
            simp only [hr] at hm'
            rcases List.mem_cons.mp hm' with rfl | hm''
            · exact ⟨m, List.mem_cons_self _ _, Or.inr hmp⟩
            · obtain ⟨w, hw, hww⟩ := ih _ m' hm''
              exact ⟨w, List.mem_cons_of_mem m hw, hww⟩
        | some mwCur =>
          by_cases hn : (mwCur.name != applied.Name) = true
          · simp only [hn, if_true] at hm'
            rcases List.mem_cons.mp hm' with rfl | hm''
            · exact ⟨m, List.mem_cons_self _ _, Or.inr hmp⟩
            · exact ⟨m', List.mem_cons_of_mem m hm'', Or.inl rfl⟩
          · simp only [hn, if_false] at hm'
            rcases List.mem_cons.mp hm' with rfl | hm''
            · exact ⟨m, List.mem_cons_self _ _, Or.inr hmp⟩
            · obtain ⟨w, hw, hww⟩ := ih _ m' hm''
              exact ⟨w, List.mem_cons_of_mem m hw, hww⟩

/-- Positive clocks on every entry, over a whole mount list. -/
def AllClocksPos (ms : List MountPoint) : Prop :=
  ∀ m ∈ ms, ∀ e ∈ m.AppliedMiddleware, 0 < e.Clock

theorem allClocksPos_popLoop (newPlugin : String → Except String Middleware) (mc : Int)
    (ms : List MountPoint) (mw0 : Option Middleware) (h : AllClocksPos ms) :
    AllClocksPos (popLoop newPlugin mc ms mw0).1 := by
  intro m' hm' e he
  obtain ⟨m, hm, hcase⟩ := popLoop_shapes newPlugin mc ms mw0 m' hm'
  rcases hcase with rfl | rfl
  · exact h m' hm e he
  · exact h m hm e ((popMiddleware_stack_sublist m).mem he)

theorem unwindLoop_done_empty (newPlugin : String → Except String Middleware)
    (container : String) :
    ∀ (fuel : Nat) (ms ms' : List MountPoint) (accErr accErr' : Option String)
      (evs devs : List ChainEvent),
      AllClocksPos ms →
      unwindLoop newPlugin container fuel ms accErr evs = (ms', devs, .done accErr') →
      ∀ m ∈ ms', m.AppliedMiddleware = [] := by
  intro fuel
  induction fuel with
  | zero =>
    intro ms ms' accErr accErr' evs devs hpos h
    simp only [unwindLoop] at h
    injection h with h1 h2
    injection h2 with h2 h3
    cases h3
  | succ fuel ih =>
    intro ms ms' accErr accErr' evs devs hposc h
    by_cases hpos : 0 < maxTopClock ms
    · rcases hp : popLoop newPlugin (maxTopClock ms) ms none with ⟨ms2, r⟩
      have hpos2 : AllClocksPos ms2 := by
        have := allClocksPos_popLoop newPlugin (maxTopClock ms) ms none hposc
        rw [hp] at this
        exact this
      rcases r with e | mwo
      · rcases e with e | e <;>
          · simp only [unwindLoop, hpos, if_true, hp] at h
            injection h with h1 h2
            injection h2 with h2 h3
            cases h3
      · rcases mwo with _ | mw
        · simp only [unwindLoop, hpos, if_true, hp] at h
          injection h with h1 h2
          injection h2 with h2 h3
          cases h3
        · simp only [unwindLoop, hpos, if_true, hp] at h
          cases hd : mw.detach ⟨container⟩ with
          | error e =>
            rw [hd] at h
            injection h with h1 h2
            injection h2 with h2 h3
            cases h3
          | ok response =>
            rw [hd] at h
            by_cases hsc : response.Success = true
            · simp only [hsc, Bool.not_true, Bool.false_eq_true, if_false] at h
              exact ih ms2 ms' accErr accErr' _ devs hpos2 h
            · have hsc' : response.Success = false := by
                cases hx : response.Success
                · rfl
                · exact absurd hx hsc
              simp only [hsc', Bool.not_false, if_true] at h
              by_cases hrc : response.Recoverable = true
              · simp only [hrc, Bool.not_true, Bool.false_eq_true, if_false] at h
                exact ih ms2 ms' _ accErr' _ devs hpos2 h
              · have hrc' : response.Recoverable = false := by
                  cases hx : response.Recoverable
                  · rfl
                  · exact absurd hx hrc
                simp only [hrc', Bool.not_false, if_true] at h
                injection h with h1 h2
                injection h2 with h2 h3
                cases h3
    · simp only [unwindLoop, hpos, if_false] at h
      injection h with h1 h2
      injection h2 with h2 h3
      subst h1
      intro m hm
      cases hstack : m.AppliedMiddleware with
      | nil => rfl
      | cons a t =>
        exfalso
        have hlast : m.AppliedMiddleware.getLast? ≠ none := by
          rw [hstack]
          simp
        obtain ⟨e, he⟩ := Option.ne_none_iff_exists'.mp hlast
        have hmem : e ∈ m.AppliedMiddleware := getLast?_mem_self _ e he
        have hepos : 0 < e.Clock := hposc m hm e hmem
        have htop : m.TopClock = e.Clock := by
          unfold MountPoint.TopClock
          rw [he]
        have := topClock_le_maxTopClock ms m hm
        omega

/-- C4: for mount sets whose applied stacks carry only positive clocks,
a `DetachMounts` run that exits through the loop's own termination test
(the `done` outcome — possibly carrying accumulated recoverable
errors) leaves every mount's applied stack empty. -/
theorem C4_detach_completeness (newPlugin : String → Except String Middleware)
    (container : String) (mounts : List (String × MountPoint))
    (ms' : List MountPoint) (devs : List ChainEvent) (accErr : Option String)
    (hpos : ∀ p ∈ mounts, ∀ e ∈ (p.2).AppliedMiddleware, 0 < e.Clock)
    (h : DetachMounts newPlugin container mounts = (ms', devs, .done accErr)) :
    ∀ m ∈ ms', m.AppliedMiddleware = [] := by
  have hpos' : AllClocksPos (mounts.map (·.2)) := by
    intro m hm e he
    obtain ⟨p, hp, hpe⟩ := List.mem_map.mp hm
    exact hpos p hp e (hpe ▸ he)
  exact unwindLoop_done_empty newPlugin container _ _ ms' none accErr [] devs hpos' h

/-- Concrete fixture: a bind mount with one applied entry from
`egMwAll` at clock 1. -/
def egMountAttached : MountPoint :=
  { egMount0 with AppliedMiddleware := [⟨"plugin:alpha", some egMwAll, {}, 1⟩] }

/-- C4, witness: one mount with one positive-clock entry detaches to an
empty stack. -/
theorem C4_detach_completeness_witness :
    (∀ p ∈ [("/dst", egMountAttached)], ∀ e ∈ (p.2).AppliedMiddleware, 0 < e.Clock) ∧
    (DetachMounts egNoPlugin "c" [("/dst", egMountAttached)] =
      ([{ egMountAttached with AppliedMiddleware := [] }],
       [ChainEvent.detach "plugin:alpha" 1 "c"], .done none)) ∧
    (∀ m ∈ [{ egMountAttached with AppliedMiddleware := ([] : List AppliedMountPointMiddleware) }],
      m.AppliedMiddleware = []) :=
  ⟨by decide, rfl,
    C4_detach_completeness egNoPlugin "c" [("/dst", egMountAttached)] _ _ none
      (by decide) rfl⟩


/-- C6: one round of the detach loop.  When the maximal top clock is
positive and the pop pass resolves the round's middleware `mw` (the
middleware recorded by the entries carrying that clock), exactly one
detach RPC is issued — one `detach` event is appended whatever the
response — and the loop continues on the popped state exactly when the
response reports success, or failure marked recoverable (recording the
error); a transport error or an unrecoverable failure stops the loop
with the accumulated error. -/
theorem C6_detach_round (newPlugin : String → Except String Middleware)
    (container : String) (fuel : Nat) (ms ms' : List MountPoint)
    (accErr : Option String) (evs : List ChainEvent) (mw : Middleware)
    (hpos : 0 < maxTopClock ms)
    (hp : popLoop newPlugin (maxTopClock ms) ms none = (ms', .ok (some mw))) :
    (∀ e : String, mw.detach ⟨container⟩ = .error e →
      unwindLoop newPlugin container (fuel + 1) ms accErr evs =
        (ms', evs ++ [.detach mw.name (maxTopClock ms) container],
         .fatal (stackError accErr
           ("unwind detach API error for " ++ mw.name ++ ": \x22" ++ e ++ "\x22")))) ∧
    (∀ r : DetachResponse, mw.detach ⟨container⟩ = .ok r →
      (r.Success = true →
        unwindLoop newPlugin container (fuel + 1) ms accErr evs =
          unwindLoop newPlugin container fuel ms' accErr
            (evs ++ [.detach mw.name (maxTopClock ms) container])) ∧
      (r.Success = false → r.Recoverable = true →
        unwindLoop newPlugin container (fuel + 1) ms accErr evs =
          unwindLoop newPlugin container fuel ms'
            (some (stackError accErr
              ("unwind detach middleware " ++ mw.name ++ " error: \x22" ++ r.Err ++ "\x22")))
            (evs ++ [.detach mw.name (maxTopClock ms) container])) ∧
      (r.Success = false → r.Recoverable = false →
        unwindLoop newPlugin container (fuel + 1) ms accErr evs =
          (ms', evs ++ [.detach mw.name (maxTopClock ms) container],
           .fatal (stackError accErr
             ("unwind detach middleware " ++ mw.name ++ " error: \x22" ++ r.Err ++ "\x22"))))) := by
  constructor
  · intro e hd
    simp only [unwindLoop, hpos, if_true, hp, hd]
  · intro r hd
    refine ⟨?_, ?_, ?_⟩
    · intro hsc
      simp only [unwindLoop, hpos, if_true, hp, hd, hsc, Bool.not_true, Bool.false_eq_true,
        if_false]
    · intro hsc hrc
      simp only [unwindLoop, hpos, if_true, hp, hd, hsc, hrc, Bool.not_false, if_true,
        Bool.not_true, Bool.false_eq_true, if_false]
    · intro hsc hrc
      simp only [unwindLoop, hpos, if_true, hp, hd, hsc, hrc, Bool.not_false, if_true]

/-- C6, witness: a one-mount state holding a single clock-1 entry for a
middleware that detaches successfully. -/
theorem C6_detach_round_witness :
    (0 < maxTopClock [egMountAttached]) ∧
    (popLoop egNoPlugin (maxTopClock [egMountAttached]) [egMountAttached] none =
      ([{ egMountAttached with AppliedMiddleware := [] }], .ok (some egMwAll))) ∧
    ((∀ e : String, egMwAll.detach ⟨"c"⟩ = .error e →
      unwindLoop egNoPlugin "c" (1 + 1) [egMountAttached] none [] =
        ([{ egMountAttached with AppliedMiddleware := [] }],
         [] ++ [.detach egMwAll.name (maxTopClock [egMountAttached]) "c"],
         .fatal (stackError none
           ("unwind detach API error for " ++ egMwAll.name ++ ": \x22" ++ e ++ "\x22")))) ∧
    (∀ r : DetachResponse, egMwAll.detach ⟨"c"⟩ = .ok r →
      (r.Success = true →
        unwindLoop egNoPlugin "c" (1 + 1) [egMountAttached] none [] =
          unwindLoop egNoPlugin "c" 1 [{ egMountAttached with AppliedMiddleware := [] }] none
            ([] ++ [.detach egMwAll.name (maxTopClock [egMountAttached]) "c"])) ∧
      (r.Success = false → r.Recoverable = true →
        unwindLoop egNoPlugin "c" (1 + 1) [egMountAttached] none [] =
          unwindLoop egNoPlugin "c" 1 [{ egMountAttached with AppliedMiddleware := [] }]
            (some (stackError none
              ("unwind detach middleware " ++ egMwAll.name ++ " error: \x22" ++ r.Err ++ "\x22")))
            ([] ++ [.detach egMwAll.name (maxTopClock [egMountAttached]) "c"])) ∧
      (r.Success = false → r.Recoverable = false →
        unwindLoop egNoPlugin "c" (1 + 1) [egMountAttached] none [] =
          ([{ egMountAttached with AppliedMiddleware := [] }],
           [] ++ [.detach egMwAll.name (maxTopClock [egMountAttached]) "c"],
           .fatal (stackError none
             ("unwind detach middleware " ++ egMwAll.name ++ " error: \x22" ++ r.Err ++ "\x22")))))) :=
  ⟨by decide, rfl,
    C6_detach_round egNoPlugin "c" 1 [egMountAttached]
      [{ egMountAttached with AppliedMiddleware := [] }] none [] egMwAll (by decide) rfl⟩


/-- The per-mount invariant established by an attach pass from empty
stacks: every entry is explainable by a chain position, and clocks
strictly increase bottom to top. -/
def MountInv (chain : List Middleware) (m : MountPoint) : Prop :=
  (∀ e ∈ m.AppliedMiddleware, entryFromChain chain 0 e) ∧
  m.AppliedMiddleware.Pairwise (fun e1 e2 => e1.Clock < e2.Clock)

/-- The state of one mount after a detach round at clock `mc`: popped
when its top carries the round clock, untouched otherwise. -/
def popIfTop (mc : Int) (m : MountPoint) : MountPoint :=
  if m.TopClock < mc then m else (m.PopMiddleware).2

/-- `mw` is the middleware of the round at clock `mc`: the chain member
at the position the round clock encodes. -/
def IsRoundMw (chain : List Middleware) (mc : Int) (mw : Middleware) : Prop :=
  ∃ j : Nat, mc = (j : Int) + 1 ∧ chain[j]? = some mw

theorem entry_name_of_clock (chain : List Middleware) (mc : Int)
    (mw : Middleware) (e : AppliedMountPointMiddleware)
    (hQ : entryFromChain chain 0 e) (hIs : IsRoundMw chain mc mw)
    (hc : e.Clock = mc) : e.Name = mw.name ∧ e.middleware = some mw := by
  obtain ⟨jE, mwE, hjE, hcE, hnE, hmE⟩ := hQ
  obtain ⟨j, hj1, hj2⟩ := hIs
  have : jE = j := by omega
  subst this
  rw [hjE] at hj2
  injection hj2 with hj2
  subst hj2
  exact ⟨hnE, hmE⟩

theorem mountInv_popIfTop (chain : List Middleware) (mc : Int) (m : MountPoint)
    (h : MountInv chain m) : MountInv chain (popIfTop mc m) := by
  obtain ⟨hQ, hpw⟩ := h
  unfold popIfTop
  split
  · exact ⟨hQ, hpw⟩
  · have hsub := popMiddleware_stack_sublist m
    exact ⟨fun e he => hQ e (hsub.mem he), hpw.sublist hsub⟩

theorem stack_decomp (m : MountPoint) (applied : AppliedMountPointMiddleware)
    (h : m.AppliedMiddleware.getLast? = some applied) :
    m.AppliedMiddleware = m.AppliedMiddleware.dropLast ++ [applied] :=
  (List.dropLast_append_getLast? applied h).symm

theorem popMiddleware_of_getLast (m : MountPoint) (applied : AppliedMountPointMiddleware)
    (h : m.AppliedMiddleware.getLast? = some applied) :
    m.PopMiddleware = (some applied,
      { m with AppliedMiddleware := m.AppliedMiddleware.dropLast }) := by
  unfold MountPoint.PopMiddleware
  rw [h]

theorem topClock_eq_getLast_clock (m : MountPoint) (applied : AppliedMountPointMiddleware)
    (h : m.AppliedMiddleware.getLast? = some applied) : m.TopClock = applied.Clock := by
  unfold MountPoint.TopClock
  rw [h]

theorem dropLast_clock_lt (m : MountPoint) (applied : AppliedMountPointMiddleware)
    (hlast : m.AppliedMiddleware.getLast? = some applied)
    (hpw : m.AppliedMiddleware.Pairwise (fun e1 e2 => e1.Clock < e2.Clock)) :
    ∀ e ∈ m.AppliedMiddleware.dropLast, e.Clock < applied.Clock := by
  intro e he
  have hdec := stack_decomp m applied hlast
  rw [hdec] at hpw
  have := (List.pairwise_append.mp hpw).2.2
  exact this e he applied (List.mem_singleton_self applied)

theorem popIfTop_topClock_lt (chain : List Middleware) (mc : Int) (m : MountPoint)
    (hmc : 0 < mc) (hInv : MountInv chain m) (hle : m.TopClock ≤ mc) :
    (popIfTop mc m).TopClock < mc := by
  unfold popIfTop
  split
  · assumption
  · have heq : m.TopClock = mc := by omega
    have hne : m.AppliedMiddleware ≠ [] := topClock_pos_nonempty m (by omega)
    have hlast : ∃ applied, m.AppliedMiddleware.getLast? = some applied := by
      cases hl : m.AppliedMiddleware.getLast? with
      | none => exact absurd (List.getLast?_eq_none_iff.mp hl) hne
      | some a => exact ⟨a, rfl⟩
    obtain ⟨applied, hlast⟩ := hlast
    rw [popMiddleware_of_getLast m applied hlast]
    have hclock := topClock_eq_getLast_clock m applied hlast
    show MountPoint.TopClock { m with AppliedMiddleware := m.AppliedMiddleware.dropLast } < mc
    unfold MountPoint.TopClock
    cases hdl : m.AppliedMiddleware.dropLast.getLast? with
    | none => simpa using hmc
    | some e' =>
      have he' : e' ∈ m.AppliedMiddleware.dropLast := getLast?_mem_self _ e' hdl
      have := dropLast_clock_lt m applied hlast hInv.2 e' he'
      simp only
      omega

theorem maxTopClock_map_popIfTop_lt (chain : List Middleware) (mc : Int)
    (ms : List MountPoint) (hmc : 0 < mc)
    (hInv : ∀ m ∈ ms, MountInv chain m) (hle : ∀ m ∈ ms, m.TopClock ≤ mc) :
    maxTopClock (ms.map (popIfTop mc)) < mc := by
  rcases foldlGoMax_cases (ms.map (popIfTop mc)) 0 with h0 | ⟨w, hw, hweq⟩
  · unfold maxTopClock
    rw [h0]
    exact hmc
  · obtain ⟨m, hm, rfl⟩ := List.mem_map.mp hw
    unfold maxTopClock
    rw [hweq]
    exact popIfTop_topClock_lt chain mc m hmc (hInv m hm) (hle m hm)


theorem popLoop_sorted (newPlugin : String → Except String Middleware)
    (chain : List Middleware) (mc : Int) (hmc : 0 < mc) :
    ∀ (ms : List MountPoint) (mw0 : Option Middleware),
      (∀ m ∈ ms, MountInv chain m) →
      (∀ m ∈ ms, m.TopClock ≤ mc) →
      (∀ mw, mw0 = some mw → IsRoundMw chain mc mw) →
      ∃ mw' : Option Middleware,
        popLoop newPlugin mc ms mw0 = (ms.map (popIfTop mc), .ok mw') ∧
        (∀ mw, mw' = some mw → IsRoundMw chain mc mw) ∧
        (mw0 ≠ none → mw' ≠ none) ∧
        ((∃ m ∈ ms, m.TopClock = mc) → mw' ≠ none) := by
  intro ms
  induction ms with
  | nil =>
    intro mw0 _ _ hmw0
    refine ⟨mw0, by simp [popLoop], hmw0, fun h => h, ?_⟩
    rintro ⟨m, hm, _⟩
    exact absurd hm (List.not_mem_nil m)
  | cons m rest ih =>
    intro mw0 hInv hle hmw0
    have hInvm := hInv m (List.mem_cons_self m rest)
    have hInvr : ∀ m' ∈ rest, MountInv chain m' :=
      fun m' hm' => hInv m' (List.mem_cons_of_mem m hm')
    have hler : ∀ m' ∈ rest, m'.TopClock ≤ mc :=
      fun m' hm' => hle m' (List.mem_cons_of_mem m hm')
    by_cases hc : m.TopClock < mc
    · obtain ⟨mw', hpl, hIs, hne0, hnex⟩ := ih mw0 hInvr hler hmw0
      refine ⟨mw', ?_, hIs, hne0, ?_⟩
      · unfold popLoop
        rw [if_pos hc, hpl]
        simp [popIfTop, hc]
      · rintro ⟨w, hw, hweq⟩
        rcases List.mem_cons.mp hw with rfl | hw'
        · omega
        · exact hnex ⟨w, hw', hweq⟩
    · have heq : m.TopClock = mc := by
        have := hle m (List.mem_cons_self m rest)
        omega
      have hne : m.AppliedMiddleware ≠ [] := topClock_pos_nonempty m (by omega)
      have hlast : ∃ applied, m.AppliedMiddleware.getLast? = some applied := by
        cases hl : m.AppliedMiddleware.getLast? with
        | none => exact absurd (List.getLast?_eq_none_iff.mp hl) hne
        | some a => exact ⟨a, rfl⟩
      obtain ⟨applied, hlast⟩ := hlast
      have hpop := popMiddleware_of_getLast m applied hlast
      have happl : applied ∈ m.AppliedMiddleware := getLast?_mem_self _ applied hlast
      obtain ⟨jA, mwA, hjA, hcA, hnA, hmA⟩ := hInvm.1 applied happl
      have hclock : applied.Clock = mc := by
        have := topClock_eq_getLast_clock m applied hlast
        omega
      have hIsA : IsRoundMw chain mc mwA := ⟨jA, by omega, hjA⟩
      have hpopIf : popIfTop mc m = (m.PopMiddleware).2 := by
        unfold popIfTop
        rw [if_neg hc]
      cases mw0 with
      | none =>
        obtain ⟨mw', hpl, hIs, hne0, hnex⟩ := ih (some mwA) hInvr hler
          (fun mw hmw => by injection hmw with hmw; exact hmw ▸ hIsA)
        refine ⟨mw', ?_, hIs, fun _ => hne0 (by simp), fun _ => hne0 (by simp)⟩
        have hres : applied.resolveMiddleware newPlugin = .ok mwA := by
          unfold AppliedMountPointMiddleware.resolveMiddleware
          rw [hmA]
        unfold popLoop
        rw [if_neg hc]
        simp only [hpop]
        simp only [hres]
        simp only [hpl, List.map_cons, hpopIf, hpop]
      | some mwCur =>
        obtain ⟨jC, hjC1, hjC2⟩ := hmw0 mwCur rfl
        have hj : jA = jC := by omega
        subst hj
        rw [hjA] at hjC2
        injection hjC2 with hjC2
        subst hjC2
        have hnamesEq : mwA.name = applied.Name := hnA.symm
        obtain ⟨mw', hpl, hIs, hne0, hnex⟩ := ih (some mwA) hInvr hler hmw0
        refine ⟨mw', ?_, hIs, fun _ => hne0 (by simp), fun _ => hne0 (by simp)⟩
        have hbne : (mwA.name != applied.Name) = false := by
          rw [hnamesEq]
          simp
        unfold popLoop
        rw [if_neg hc]
        simp only [hpop]
        simp only [hbne, Bool.false_eq_true, if_false]
        simp only [hpl, List.map_cons, hpopIf, hpop]


theorem popIfTop_stack_mem (mc : Int) (m : MountPoint)
    (e : AppliedMountPointMiddleware) (he : e ∈ (popIfTop mc m).AppliedMiddleware) :
    e ∈ m.AppliedMiddleware := by
  unfold popIfTop at he
  split at he
  · exact he
  · exact (popMiddleware_stack_sublist m).mem he

theorem stack_empty_of_nonpos_max (chain : List Middleware) (ms : List MountPoint)
    (hInv : ∀ m ∈ ms, MountInv chain m) (hpos : ¬ 0 < maxTopClock ms) :
    ∀ m ∈ ms, m.AppliedMiddleware = [] := by
  intro m hm
  cases hstack : m.AppliedMiddleware with
  | nil => rfl
  | cons a t =>
    exfalso
    have hne : m.AppliedMiddleware ≠ [] := by rw [hstack]; simp
    have hlast : ∃ e, m.AppliedMiddleware.getLast? = some e := by
      cases hl : m.AppliedMiddleware.getLast? with
      | none => exact absurd (List.getLast?_eq_none_iff.mp hl) hne
      | some e => exact ⟨e, rfl⟩
    obtain ⟨e, hlast⟩ := hlast
    have hmem : e ∈ m.AppliedMiddleware := getLast?_mem_self _ e hlast
    obtain ⟨j, mw, _, hc, _, _⟩ := (hInv m hm).1 e hmem
    have htop := topClock_eq_getLast_clock m e hlast
    have := topClock_le_maxTopClock ms m hm
    omega

theorem round_top_entry (chain : List Middleware) (ms : List MountPoint)
    (mw : Middleware) (hInv : ∀ m ∈ ms, MountInv chain m)
    (hIs : IsRoundMw chain (maxTopClock ms) mw)
    (hwit : ∃ m ∈ ms, m.TopClock = maxTopClock ms) (hpos : 0 < maxTopClock ms) :
    ∃ m ∈ ms, ∃ e ∈ m.AppliedMiddleware,
      e.Name = mw.name ∧ e.Clock = maxTopClock ms := by
  obtain ⟨m, hm, htop⟩ := hwit
  have hne : m.AppliedMiddleware ≠ [] := topClock_pos_nonempty m (by omega)
  have hlast : ∃ e, m.AppliedMiddleware.getLast? = some e := by
    cases hl : m.AppliedMiddleware.getLast? with
    | none => exact absurd (List.getLast?_eq_none_iff.mp hl) hne
    | some e => exact ⟨e, rfl⟩
  obtain ⟨e, hlast⟩ := hlast
  have hmem : e ∈ m.AppliedMiddleware := getLast?_mem_self _ e hlast
  have hclk : e.Clock = maxTopClock ms := by
    have := topClock_eq_getLast_clock m e hlast
    omega
  obtain ⟨hn, _⟩ := entry_name_of_clock chain (maxTopClock ms) mw e
    ((hInv m hm).1 e hmem) hIs hclk
  exact ⟨m, hm, e, hmem, hn, hclk⟩

theorem unwindLoop_covers (newPlugin : String → Except String Middleware)
    (container : String) (chain : List Middleware)
    (hD : ∀ mw ∈ chain, ∃ r : DetachResponse, mw.detach ⟨container⟩ = .ok r ∧
      (r.Success = true ∨ r.Recoverable = true)) :
    ∀ (fuel : Nat) (ms : List MountPoint) (accErr : Option String) (evs : List ChainEvent),
      totalSize ms < fuel →
      (∀ m ∈ ms, MountInv chain m) →
      ∃ (ms' : List MountPoint) (devs : List ChainEvent) (accErr' : Option String),
        unwindLoop newPlugin container fuel ms accErr evs = (ms', evs ++ devs, .done accErr') ∧
        devs.Pairwise (fun a b => b.clock < a.clock) ∧
        (∀ ev ∈ devs, 0 < ev.clock ∧ ev.clock ≤ maxTopClock ms) ∧
        (∀ m ∈ ms, ∀ e ∈ m.AppliedMiddleware,
          ∃ ev ∈ devs, ev.name = e.Name ∧ ev.clock = e.Clock) ∧
        (∀ ev ∈ devs, ∃ m ∈ ms, ∃ e ∈ m.AppliedMiddleware,
          ev.name = e.Name ∧ ev.clock = e.Clock) := by
  intro fuel
  induction fuel with
  | zero =>
    intro ms accErr evs hf _
    omega
  | succ fuel ih =>
    intro ms accErr evs hf hInv
    by_cases hpos : 0 < maxTopClock ms
    · have hle : ∀ m ∈ ms, m.TopClock ≤ maxTopClock ms :=
        fun m hm => topClock_le_maxTopClock ms m hm
      obtain ⟨mw', hpl, hIs, -, hnex⟩ := popLoop_sorted newPlugin chain (maxTopClock ms)
        hpos ms none hInv hle (by intro mw h; cases h)
      have hwit : ∃ m ∈ ms, m.TopClock = maxTopClock ms := maxTopClock_mem ms hpos
      obtain ⟨mw, rfl⟩ : ∃ mw, mw' = some mw := by
        cases mw' with
        | none => exact absurd rfl (hnex hwit)
        | some mw => exact ⟨mw, rfl⟩
      have hIsmw : IsRoundMw chain (maxTopClock ms) mw := hIs mw rfl
      obtain ⟨j, hj1, hj2⟩ := hIs mw rfl
      have hmwchain : mw ∈ chain := List.getElem?_mem hj2
      obtain ⟨r, hdr, hok⟩ := hD mw hmwchain
      have hInv2 : ∀ m2 ∈ ms.map (popIfTop (maxTopClock ms)), MountInv chain m2 := by
        intro m2 hm2
        obtain ⟨m, hm, rfl⟩ := List.mem_map.mp hm2
        exact mountInv_popIfTop chain _ m (hInv m hm)
      have hsize : totalSize (ms.map (popIfTop (maxTopClock ms))) < totalSize ms := by
        have := popLoop_size_lt newPlugin (maxTopClock ms) ms none hpos
          (hwit.elim fun m hm => ⟨m, hm.1, le_of_eq hm.2.symm⟩)
        rw [hpl] at this
        exact this
      have hmax2 : maxTopClock (ms.map (popIfTop (maxTopClock ms))) < maxTopClock ms :=
        maxTopClock_map_popIfTop_lt chain _ ms hpos hInv hle
      have hsplit : ∀ m ∈ ms, ∀ e ∈ m.AppliedMiddleware,
          (e.Name = mw.name ∧ e.Clock = maxTopClock ms) ∨
          e ∈ (popIfTop (maxTopClock ms) m).AppliedMiddleware := by
        intro m hm e he
        by_cases hc : m.TopClock < maxTopClock ms
        · right
          unfold popIfTop
          rw [if_pos hc]
          exact he
        · have heqc : m.TopClock = maxTopClock ms := by
            have := hle m hm
            omega
          have hne : m.AppliedMiddleware ≠ [] := topClock_pos_nonempty m (by omega)
          have hlast : ∃ a, m.AppliedMiddleware.getLast? = some a := by
            cases hl : m.AppliedMiddleware.getLast? with
            | none => exact absurd (List.getLast?_eq_none_iff.mp hl) hne
            | some a => exact ⟨a, rfl⟩
          obtain ⟨applied, hlast⟩ := hlast
          have hdec := stack_decomp m applied hlast
          rw [hdec] at he
          rcases List.mem_append.mp he with hdl | hsing
          · right
            unfold popIfTop
            rw [if_neg hc, popMiddleware_of_getLast m applied hlast]
            exact hdl
          · left
            have : e = applied := List.mem_singleton.mp hsing
            subst this
            have hclk : e.Clock = maxTopClock ms := by
              have := topClock_eq_getLast_clock m e hlast
              omega
            obtain ⟨hn, -⟩ := entry_name_of_clock chain (maxTopClock ms) mw e
              ((hInv m hm).1 e (getLast?_mem_self _ e hlast)) hIsmw hclk
            exact ⟨hn, hclk⟩
      have hwitentry := round_top_entry chain ms mw hInv hIsmw hwit hpos
      have hassemble : ∀ (accErrNext : Option String),
          ∃ (ms' : List MountPoint) (devs' : List ChainEvent) (accErr' : Option String),
            unwindLoop newPlugin container fuel (ms.map (popIfTop (maxTopClock ms)))
                accErrNext (evs ++ [.detach mw.name (maxTopClock ms) container]) =
              (ms', (evs ++ [.detach mw.name (maxTopClock ms) container]) ++ devs',
               .done accErr') ∧
            devs'.Pairwise (fun a b => b.clock < a.clock) ∧
            (∀ ev ∈ devs', 0 < ev.clock ∧
              ev.clock ≤ maxTopClock (ms.map (popIfTop (maxTopClock ms)))) ∧
            (∀ m2 ∈ ms.map (popIfTop (maxTopClock ms)), ∀ e ∈ m2.AppliedMiddleware,
              ∃ ev ∈ devs', ev.name = e.Name ∧ ev.clock = e.Clock) ∧
            (∀ ev ∈ devs', ∃ m2 ∈ ms.map (popIfTop (maxTopClock ms)),
              ∃ e ∈ m2.AppliedMiddleware, ev.name = e.Name ∧ ev.clock = e.Clock) :=
        fun accErrNext => ih (ms.map (popIfTop (maxTopClock ms))) accErrNext
          (evs ++ [.detach mw.name (maxTopClock ms) container]) (by omega) hInv2
      have hfinish : ∀ (accErrNext : Option String)
          (hred : unwindLoop newPlugin container (fuel + 1) ms accErr evs =
            unwindLoop newPlugin container fuel (ms.map (popIfTop (maxTopClock ms)))
              accErrNext (evs ++ [.detach mw.name (maxTopClock ms) container])),
          ∃ (ms' : List MountPoint) (devs : List ChainEvent) (accErr' : Option String),
            unwindLoop newPlugin container (fuel + 1) ms accErr evs =
              (ms', evs ++ devs, .done accErr') ∧
            devs.Pairwise (fun a b => b.clock < a.clock) ∧
            (∀ ev ∈ devs, 0 < ev.clock ∧ ev.clock ≤ maxTopClock ms) ∧
            (∀ m ∈ ms, ∀ e ∈ m.AppliedMiddleware,
              ∃ ev ∈ devs, ev.name = e.Name ∧ ev.clock = e.Clock) ∧
            (∀ ev ∈ devs, ∃ m ∈ ms, ∃ e ∈ m.AppliedMiddleware,
              ev.name = e.Name ∧ ev.clock = e.Clock) := by
        intro accErrNext hred
        obtain ⟨ms', devs', accErr', heq, hpw', hbnd', hcov', hcnv'⟩ := hassemble accErrNext
        refine ⟨ms', .detach mw.name (maxTopClock ms) container :: devs', accErr',
          ?_, ?_, ?_, ?_, ?_⟩
        · rw [hred, heq]
          simp
        · refine List.Pairwise.cons ?_ hpw'
          intro b hb
          have h1 := (hbnd' b hb).2
          have h2 : (ChainEvent.detach mw.name (maxTopClock ms) container).clock =
            maxTopClock ms := rfl
          omega
        · intro ev hev
          rcases List.mem_cons.mp hev with rfl | hev'
          · exact ⟨by simpa [ChainEvent.clock] using hpos, by simp [ChainEvent.clock]⟩
          · obtain ⟨hb1, hb2⟩ := hbnd' ev hev'
            exact ⟨hb1, by omega⟩
        · intro m hm e he
          rcases hsplit m hm e he with ⟨hn, hc⟩ | he2
          · exact ⟨.detach mw.name (maxTopClock ms) container, List.mem_cons_self _ _,
              by simp [ChainEvent.name, hn], by simp [ChainEvent.clock, hc]⟩
          · obtain ⟨ev, hev, hevn, hevc⟩ := hcov' (popIfTop (maxTopClock ms) m)
              (List.mem_map_of_mem _ hm) e he2
            exact ⟨ev, List.mem_cons_of_mem _ hev, hevn, hevc⟩
        · intro ev hev
          rcases List.mem_cons.mp hev with rfl | hev'
          · obtain ⟨m, hm, e, hmem, hn, hclk⟩ := hwitentry
            exact ⟨m, hm, e, hmem, by simp [ChainEvent.name, hn], by simp [ChainEvent.clock, hclk]⟩
          · obtain ⟨m2, hm2, e, he, hevn, hevc⟩ := hcnv' ev hev'
            obtain ⟨m, hm, rfl⟩ := List.mem_map.mp hm2
            exact ⟨m, hm, e, popIfTop_stack_mem _ m e he, hevn, hevc⟩
      by_cases hsc : r.Success = true
      · refine hfinish accErr ?_
        simp only [unwindLoop, hpos, if_true, hpl, hdr, hsc, Bool.not_true,
          Bool.false_eq_true, if_false]
      · have hsc' : r.Success = false := by
          cases hx : r.Success
          · rfl
          · exact absurd hx hsc
        have hrc : r.Recoverable = true := by
          rcases hok with h | h
          · exact absurd h hsc
          · exact h
        refine hfinish (some (stackError accErr
          ("unwind detach middleware " ++ mw.name ++ " error: \x22" ++ r.Err ++ "\x22"))) ?_
        simp only [unwindLoop, hpos, if_true, hpl, hdr, hsc', Bool.not_false, if_true,
          hrc, Bool.not_true, Bool.false_eq_true, if_false]
    · refine ⟨ms, [], accErr, ?_, by simp, by simp, ?_, by simp⟩
      · simp only [unwindLoop, hpos, if_false, List.append_nil]
      · intro m hm e he
        rw [stack_empty_of_nonpos_max chain ms hInv hpos m hm] at he
        cases he


theorem attachMounts_mountInv (newPlugin : String → Except String Middleware)
    (id : String) (chain : List Middleware) (mounts mounts1 : List MountPoint)
    (evs : List ChainEvent)
    (h0 : ∀ m ∈ mounts, m.AppliedMiddleware = [])
    (hA : AttachMounts newPlugin id chain mounts = (mounts1, evs, none)) :
    ∀ m1 ∈ mounts1, MountInv chain m1 := by
  obtain ⟨c, hal⟩ := attachMounts_ok_elim newPlugin id chain mounts mounts1 evs hA
  obtain ⟨hlen, -, hstk⟩ := attachLoop_stacks id chain 0 mounts []
  intro m1 hm1
  obtain ⟨k, hk⟩ := List.mem_iff_getElem?.mp hm1
  cases hmk : mounts[k]? with
  | none =>
    exfalso
    have h1 : k < mounts1.length := by
      by_contra hge
      rw [List.getElem?_eq_none (by omega)] at hk
      cases hk
    have h2 : mounts.length ≤ k := by
      by_contra hlt
      rw [List.getElem?_eq_getElem (by omega)] at hmk
      cases hmk
    rw [hal] at hlen
    simp only at hlen
    omega
  | some m =>
    obtain ⟨tail, htl, hent, hpw⟩ := hstk k m hmk
    rw [hal] at htl
    simp only at htl
    rw [htl] at hk
    injection hk with hk
    have hm0 : m.AppliedMiddleware = [] := h0 m (List.getElem?_mem hmk)
    constructor
    · intro e he
      rw [← hk] at he
      simp only [hm0, List.nil_append] at he
      exact hent e he
    · rw [← hk]
      simp only [hm0, List.nil_append]
      exact hpw

/-- The mount invariant holds for the mounts as left by any attach
pass from empty initial stacks, whether the pass returned without
error or stopped at a mid-chain failure: `attachLoop` returns the
mounts as they stood when the failing step began, so their stacks hold
exactly the entries pushed by the earlier, successful steps. -/
theorem attachLoop_mountInv (id : String) (chain : List Middleware)
    (mounts m1 : List MountPoint) (evs : List ChainEvent) (c : Int)
    (errOpt : Option (String × String))
    (h0 : ∀ m ∈ mounts, m.AppliedMiddleware = [])
    (hL : attachLoop id chain 0 mounts [] = (m1, evs, c, errOpt)) :
    ∀ m ∈ m1, MountInv chain m := by
  obtain ⟨hlen, -, hstk⟩ := attachLoop_stacks id chain 0 mounts []
  intro m1e hm1e
  obtain ⟨k, hk⟩ := List.mem_iff_getElem?.mp hm1e
  cases hmk : mounts[k]? with
  | none =>
    exfalso
    have h1 : k < m1.length := by
      by_contra hge
      rw [List.getElem?_eq_none (by omega)] at hk
      cases hk
    have h2 : mounts.length ≤ k := by
      by_contra hlt
      rw [List.getElem?_eq_getElem (by omega)] at hmk
      cases hmk
    rw [hL] at hlen
    simp only at hlen
    omega
  | some m =>
    obtain ⟨tail, htl, hent, hpw⟩ := hstk k m hmk
    rw [hL] at htl
    simp only at htl
    rw [htl] at hk
    injection hk with hk
    have hm0 : m.AppliedMiddleware = [] := h0 m (List.getElem?_mem hmk)
    constructor
    · intro e he
      rw [← hk] at he
      simp only [hm0, List.nil_append] at he
      exact hent e he
    · rw [← hk]
      simp only [hm0, List.nil_append]
      exact hpw

/-- C1: an attach pass from empty initial stacks — whether it returns
without error or fails mid-chain — is followed by a detach pass over
the mounts as the pass left them, in which, provided every detach RPC
reports success or a recoverable failure, the unwind runs to
completion, its detach RPCs have strictly decreasing clock values (so
there is one RPC per distinct clock value), every entry pushed during
the attach pass is covered by a detach RPC bearing its clock and
middleware name (exactly one, by the clock decrease), and every detach
RPC corresponds to at least one pushed entry.  After a pass without
error that detach pass is what `DetachMounts` performs on any keyed
listing of the returned mounts; after a mid-chain failure it is the
unwind `AttachMounts` itself runs before returning, whose detach
events and unwound mounts appear in `AttachMounts`' return value with
the original error wrapped in the failing middleware's name. -/
theorem C1_attach_then_detach (newPlugin : String → Except String Middleware)
    (id : String) (chain : List Middleware) (mounts m1 : List MountPoint)
    (evs : List ChainEvent) (c : Int) (errOpt : Option (String × String))
    (h0 : ∀ m ∈ mounts, m.AppliedMiddleware = [])
    (hL : attachLoop id chain 0 mounts [] = (m1, evs, c, errOpt))
    (hD : ∀ mw ∈ chain, ∃ r : DetachResponse, mw.detach ⟨id⟩ = .ok r ∧
      (r.Success = true ∨ r.Recoverable = true)) :
    ∃ (m2 : List MountPoint) (devs : List ChainEvent) (accErr : Option String),
      unwind newPlugin id m1 = (m2, devs, .done accErr) ∧
      devs.Pairwise (fun a b => b.clock < a.clock) ∧
      (∀ m ∈ m1, ∀ e ∈ m.AppliedMiddleware,
        ∃ ev ∈ devs, ev.name = e.Name ∧ ev.clock = e.Clock) ∧
      (∀ ev ∈ devs, ∃ m ∈ m1, ∃ e ∈ m.AppliedMiddleware,
        ev.name = e.Name ∧ ev.clock = e.Clock) ∧
      (match errOpt with
       | none =>
         AttachMounts newPlugin id chain mounts = (m1, evs, none) ∧
         ∀ keyed : List (String × MountPoint), keyed.map (·.2) = m1 →
           DetachMounts newPlugin id keyed = (m2, devs, .done accErr)
       | some (mwName, err) =>
         AttachMounts newPlugin id chain mounts =
           (m2, evs ++ devs,
            some ("middleware " ++ mwName ++ " failed with error: " ++
              (match accErr with
               | some e => e ++ ": " ++ err
               | none => err)))) := by
  have hInv := attachLoop_mountInv id chain mounts m1 evs c errOpt h0 hL
  obtain ⟨ms', devs, accErr', heq, hpw, -, hcov, hcnv⟩ :=
    unwindLoop_covers newPlugin id chain hD (totalSize m1 + 1) m1 none []
      (by omega) hInv
  have hu : unwind newPlugin id m1 = (ms', devs, .done accErr') := by
    unfold unwind
    simpa using heq
  refine ⟨ms', devs, accErr', hu, hpw, hcov, hcnv, ?_⟩
  cases errOpt with
  | none =>
    refine ⟨AttachMounts_ok_eq newPlugin id chain mounts m1 evs c hL, ?_⟩
    intro keyed hk
    unfold DetachMounts
    rw [hk]
    exact hu
  | some pr =>
    obtain ⟨mwName, err⟩ := pr
    cases accErr' with
    | none =>
      have hun : unwindAttachOnErr newPlugin mwName id m1 err =
          (ms', devs, "middleware " ++ mwName ++ " failed with error: " ++ err) := by
        unfold unwindAttachOnErr
        rw [hu]
        rfl
      exact AttachMounts_err_eq newPlugin id chain mounts m1 ms' evs devs c mwName err _ hL hun
    | some e0 =>
      have hun : unwindAttachOnErr newPlugin mwName id m1 err =
          (ms', devs, "middleware " ++ mwName ++ " failed with error: " ++
            (e0 ++ ": " ++ err)) := by
        unfold unwindAttachOnErr
        rw [hu]
        rfl
      exact AttachMounts_err_eq newPlugin id chain mounts m1 ms' evs devs c mwName err _ hL hun

/-- Concrete fixture: `egMount0` after `egMwAll` attached at clock 1. -/
def egMount0Alpha : MountPoint :=
  { egMount0 with AppliedMiddleware := [⟨"plugin:alpha", some egMwAll, {}, 1⟩] }

/-- C1, witness: a pass over the chain `[egMwAll, egMwFail]` pushes one
entry at clock 1 and then fails mid-chain (`Success=false` at position
2); the in-pass unwind detaches that entry, and `AttachMounts` returns
the unwound mounts, the detach event and the wrapped error. -/
theorem C1_attach_then_detach_witness :
    (∀ m ∈ [egMount0], m.AppliedMiddleware = []) ∧
    (attachLoop "c1" [egMwAll, egMwFail] 0 [egMount0] [] =
      ([egMount0Alpha],
       [.attach "plugin:alpha" 1 ⟨"c1", [middlewareMountPointOfMountPoint egMount0]⟩],
       2, some ("plugin:fail", "boom"))) ∧
    (∀ mw ∈ [egMwAll, egMwFail], ∃ r : DetachResponse, mw.detach ⟨"c1"⟩ = .ok r ∧
      (r.Success = true ∨ r.Recoverable = true)) ∧
    (∃ (m2 : List MountPoint) (devs : List ChainEvent) (accErr : Option String),
      unwind egNoPlugin "c1" [egMount0Alpha] = (m2, devs, .done accErr) ∧
      devs.Pairwise (fun a b => b.clock < a.clock) ∧
      (∀ m ∈ [egMount0Alpha], ∀ e ∈ m.AppliedMiddleware,
        ∃ ev ∈ devs, ev.name = e.Name ∧ ev.clock = e.Clock) ∧
      (∀ ev ∈ devs, ∃ m ∈ [egMount0Alpha], ∃ e ∈ m.AppliedMiddleware,
        ev.name = e.Name ∧ ev.clock = e.Clock) ∧
      AttachMounts egNoPlugin "c1" [egMwAll, egMwFail] [egMount0] =
        (m2,
         [ChainEvent.attach "plugin:alpha" 1
            ⟨"c1", [middlewareMountPointOfMountPoint egMount0]⟩] ++ devs,
         some ("middleware " ++ "plugin:fail" ++ " failed with error: " ++
           (match accErr with
            | some e => e ++ ": " ++ "boom"
            | none => "boom")))) := by
  have h0 : ∀ m ∈ [egMount0], m.AppliedMiddleware = [] := by
    intro m hm
    rw [List.mem_singleton] at hm
    subst hm
    rfl
  have hL : attachLoop "c1" [egMwAll, egMwFail] 0 [egMount0] [] =
      ([egMount0Alpha],
       [.attach "plugin:alpha" 1 ⟨"c1", [middlewareMountPointOfMountPoint egMount0]⟩],
       2, some ("plugin:fail", "boom")) := rfl
  have hD : ∀ mw ∈ [egMwAll, egMwFail], ∃ r : DetachResponse, mw.detach ⟨"c1"⟩ = .ok r ∧
      (r.Success = true ∨ r.Recoverable = true) := by
    intro mw hmw
    rcases List.mem_cons.mp hmw with rfl | hmw'
    · exact ⟨{ Success := true }, rfl, Or.inl rfl⟩
    · rcases List.mem_cons.mp hmw' with rfl | hmw''
      · exact ⟨{ Success := true }, rfl, Or.inl rfl⟩
      · cases hmw''
  exact ⟨h0, hL, hD,
    C1_attach_then_detach egNoPlugin "c1" [egMwAll, egMwFail] [egMount0]
      [egMount0Alpha] _ 2 (some ("plugin:fail", "boom")) h0 hL hD⟩

end MountPointChain
